import Mathlib

/-!
Verification of the natural-language specification of `src/utility/loader/BlendLoader.py`
against a shallow embedding of its code.

The module under verification is a thin orchestration layer over Blender's `bpy` data
API.  The embedding models the host state explicitly:

* a `Datablock` is one entry of one `bpy.data` collection, identified by a numeric id
  (modelling Python object identity), carrying its collection name, its entity name,
  its object type (meaningful for the "objects" collection), its parent pointer
  (meaningful for objects) and its animation data (an optional list of f-curves, each
  a list of integer keyframe numbers);
* a `SceneState` is the whole `bpy.data` contents together with the reference edges
  between datablocks, the objects linked into the current scene collection, the active
  scene camera and the scene's `frame_end`;
* a `BlendFile` is the archive being loaded: the datablocks stored in the file and the
  dependency edges between them (loading an entity also loads everything it depends on,
  which is what creates the orphans that `_purge_added_orphans` cleans up);
* Python exceptions are modelled by `Except String`.

Host behaviour that the Python code relies on is modelled faithfully: removing a
datablock drops its reference edges and clears parent pointers to it, linking an object
that is already in the collection raises, accessing a removed datablock raises, reading
`.parent` on a non-object datablock raises, and `bpy.data.objects[name]` looks an object
up by name.
-/

namespace BlendLoader

/-- One datablock of `bpy.data`.  `bid` models Python object identity. -/
structure Datablock where
  bid : Nat
  collection : String
  name : String
  objType : String
  parent : Option Nat
  animation : Option (List (List Int))
deriving Repr, DecidableEq, Inhabited

/-- The state of the host application visible to `BlendLoader`. -/
structure SceneState where
  blocks : List Datablock
  refs : List (Nat × Nat)
  sceneLinks : List Nat
  sceneCamera : Option Nat
  frameEnd : Int
deriving Repr, DecidableEq

/-- A datablock is used when some reference edge points at it, it is linked into the
scene collection, it is the active scene camera, or it is some object's parent. -/
def usedBy (s : SceneState) (i : Nat) : Bool :=
  s.refs.any (fun e => e.2 == i) || s.sceneLinks.contains i ||
    s.sceneCamera == some i || s.blocks.any (fun b => b.parent == some i)

/-- An orphan is an unreferenced datablock. -/
def isOrphan (s : SceneState) (b : Datablock) : Bool :=
  !usedBy s b.bid

/-- Modelled from the spec: `collect_all_orphan_datablocks` (defined in
`src/utility/BlenderUtility.py`, which is not part of the sources) collects, for every
`bpy.data` collection name, the set of unreferenced ("orphan") datablocks of that
collection. -/
def collect_all_orphan_datablocks (s : SceneState) (c : String) : List Nat :=
  ((s.blocks.filter (fun b => b.collection == c)).filter (fun b => isOrphan s b)).map
    (fun b => b.bid)

/-- Clearing the parent pointer of a datablock whose parent is being removed. -/
def pcClear (i : Nat) (b : Datablock) : Datablock :=
  if b.parent == some i then { b with parent := none } else b

/-- Removing a datablock (`bpy_prop_collection.remove`, which unlinks the datablock):
the datablock disappears, its reference edges disappear, parent pointers to it are
cleared, it is unlinked from the scene collection and ceases to be the active camera. -/
def removeBlock (s : SceneState) (i : Nat) : SceneState :=
  { blocks := (s.blocks.filter (fun b => !(b.bid == i))).map (pcClear i)
    refs := s.refs.filter (fun e => !(e.1 == i) && !(e.2 == i))
    sceneLinks := s.sceneLinks.filter (fun j => !(j == i))
    sceneCamera := if s.sceneCamera == some i then none else s.sceneCamera
    frameEnd := s.frameEnd }

/-- The identities of the datablocks of a state. -/
def bidsOf (s : SceneState) : List Nat :=
  s.blocks.map (fun b => b.bid)

/-- Two datablocks agree on everything except possibly the parent pointer (removals
clear parent pointers but change nothing else about the surviving datablocks). -/
def sigEq (b b2 : Datablock) : Prop :=
  b2.bid = b.bid ∧ b2.collection = b.collection ∧ b2.name = b.name ∧
    b2.objType = b.objType ∧ b2.animation = b.animation

/-- The collection names of `bpy.data` that hold at least one datablock; collections
outside this list have an empty orphan set, so iterating over them is a no-op. -/
def collectionNames (s : SceneState) : List String :=
  (s.blocks.map (fun b => b.collection)).dedup

/-- One sweep of the body of the `while` loop of `_purge_added_orphans`: the orphans
that were not orphans before the load and were not deliberately imported. -/
def purgeCandidates (ob dt : String → List Nat) (s : SceneState) : List Nat :=
  (collectionNames s).flatMap (fun c =>
    (collect_all_orphan_datablocks s c).filter
      (fun i => !(ob c).contains i && !(dt c).contains i))

/-- The `while purge_orphans` loop, with explicit fuel.  Each iteration recomputes the
orphans, removes every orphan added by this loader, and repeats while it removed
anything. -/
def purgeLoop (ob dt : String → List Nat) : Nat → SceneState → SceneState
  | 0, s => s
  | n + 1, s =>
    if (purgeCandidates ob dt s).isEmpty then s
    else purgeLoop ob dt n ((purgeCandidates ob dt s).foldl removeBlock s)

/-- `BlendLoader._purge_added_orphans`.  Each repetition of the source's `while` loop
removes at least one datablock, so `s.blocks.length + 1` rounds of fuel always reach the
loop's exit (proved below). -/
def _purge_added_orphans (ob dt : String → List Nat) (s : SceneState) : SceneState :=
  purgeLoop ob dt (s.blocks.length + 1) s

/-- The `max_keyframe` computation of `BlendLoader.load`: starting from `-1`, fold `max`
over the keyframe numbers of all f-curves of the object's animation data. -/
def cameraMaxKeyframe (anim : Option (List (List Int))) : Int :=
  match anim with
  | none => -1
  | some fcurves => fcurves.foldl (fun m curve => curve.foldl max m) (-1)

/-- Python `str.lower()` (the names involved are ASCII, where `Char.toLower` and
Python's `lower` agree), implemented over the character list so that it evaluates by
kernel reduction. -/
def strLower (s : String) : String :=
  String.mk (s.data.map Char.toLower)

/-- Equality of `Except` results is decidable componentwise. -/
instance exceptDecEq {ε α : Type} [DecidableEq ε] [DecidableEq α] :
    DecidableEq (Except ε α)
  | .error e, .error f =>
    match decEq e f with
    | isTrue h => isTrue (by rw [h])
    | isFalse h => isFalse (fun hh => h (by injection hh))
  | .error _, .ok _ => isFalse (fun hh => by injection hh)
  | .ok _, .error _ => isFalse (fun hh => by injection hh)
  | .ok a, .ok b =>
    match decEq a b with
    | isTrue h => isTrue (by rw [h])
    | isFalse h => isFalse (fun hh => h (by injection hh))

/-- A configured value: a single string or a list of strings. -/
inductive ConfigValue where
  | str : String → ConfigValue
  | list : List String → ConfigValue
deriving Repr, DecidableEq

/-- The `if not isinstance(config_value, list): config_value = [config_value]` step. -/
def ConfigValue.toList : ConfigValue → List String
  | .str s => [s]
  | .list l => l

/-- `BlendLoader._validate_and_standardizes_configured_list`: wrap a single string into
a list, lower-case every element, and raise on the first element that is not allowed. -/
def _validate_and_standardizes_configured_list (config_value : ConfigValue)
    (allowed_elements : List String) (element_name : String) : Except String (List String) :=
  let lowered := config_value.toList.map (fun e => strLower e)
  match lowered.find? (fun e => !allowed_elements.contains e) with
  | some e => .error ("No such " ++ element_name ++ ": " ++ e)
  | none => .ok lowered

/-- `BlendLoader.valid_datablocks`: in the source this is computed from `dir(bpy.data)`
at import time; the embedding fixes the list of `bpy.data` collection names of the host
version the code targets. -/
def valid_datablocks : List String :=
  ["actions", "armatures", "brushes", "cameras", "collections", "curves", "fonts",
   "images", "lattices", "libraries", "lightprobes", "lights", "linestyles", "masks",
   "materials", "meshes", "metaballs", "movieclips", "node_groups", "objects",
   "palettes", "particles", "scenes", "screens", "sounds", "speakers", "texts",
   "textures", "volumes", "worlds"]

/-- `BlendLoader.valid_object_types`, verbatim from the source. -/
def valid_object_types : List String :=
  ["mesh", "curve", "surface", "meta", "font", "hair", "pointcloud", "volume",
   "gpencil", "armature", "lattice", "empty", "light", "light_probe", "camera",
   "speaker"]

/-- The .blend archive: the datablocks it stores and the dependency edges between them
(an edge `(u, v)` means the file datablock `u` depends on the file datablock `v`). -/
structure BlendFile where
  fileBlocks : List Datablock
  fileDeps : List (Nat × Nat)
deriving Repr, DecidableEq

/-- `getattr(data_from, data_block)`: the names of the entities the archive stores
under one data block. -/
def fileEntityNames (file : BlendFile) (d : String) : List String :=
  (file.fileBlocks.filter (fun b => b.collection == d)).map (fun b => b.name)

/-- Python truthiness of the `name_regrex` argument: `None` and the empty string are
falsy, every other string is truthy. -/
def pyTruthy : Option String → Bool
  | none => false
  | some s => !(s == "")

/-- The name filter of `BlendLoader.load`: an entity name is selected when
`not name_regrex or re.fullmatch(name_regrex, entity_name) is not None`.  `fm` is the
oracle for `re.fullmatch _ _ is not None`. -/
def selectEntityNames (fm : String → String → Bool) (name_regrex : Option String)
    (names : List String) : List String :=
  names.filter (fun n => !pyTruthy name_regrex || fm (name_regrex.getD "") n)

/-- The entities imported for one data block: the file datablocks of that collection
whose names pass the name filter (these become `getattr(data_to, data_block)`). -/
def dataToIds (file : BlendFile) (fm : String → String → Bool) (nr : Option String)
    (d : String) : List Nat :=
  let names := selectEntityNames fm nr (fileEntityNames file d)
  ((file.fileBlocks.filter (fun b => b.collection == d)).filter
    (fun b => names.contains b.name)).map (fun b => b.bid)

/-- The `data_to` record built inside the `with bpy.data.libraries.load` block, as an
association list from data block name to imported entities. -/
def mkDataTo (file : BlendFile) (fm : String → String → Bool) (nr : Option String)
    (dbs : List String) : List (String × List Nat) :=
  dbs.map (fun d => (d, dataToIds file fm nr d))

/-- `getattr(data_to, c)`: data blocks that were not requested hold an empty list. -/
def dtGet (dtL : List (String × List Nat)) (c : String) : List Nat :=
  match dtL.find? (fun p => p.1 == c) with
  | some p => p.2
  | none => []

/-- The `for data_block in data_blocks` loop inside the `with` block: raise
`"No such data block"` if `data_from` has no such attribute (the attributes of
`data_from` are the `bpy.data` collections), otherwise select the matching entities of
every requested data block. -/
def importBlocks (file : BlendFile) (fm : String → String → Bool) (nr : Option String)
    (dbs : List String) : Except String (List (String × List Nat)) :=
  match dbs.find? (fun d => !valid_datablocks.contains d) with
  | some d => .error ("No such data block: " ++ d)
  | none => .ok (mkDataTo file fm nr dbs)

/-- Transitive dependency closure inside the archive, with explicit fuel: Blender loads,
together with every requested entity, every file datablock it (transitively) depends
on. -/
def depClosure (deps : List (Nat × Nat)) : Nat → List Nat → List Nat
  | 0, acc => acc
  | n + 1, acc =>
    let fresh := ((deps.filter (fun e => acc.contains e.1 && !acc.contains e.2)).map
      (fun e => e.2)).dedup
    if fresh.isEmpty then acc else depClosure deps n (acc ++ fresh)

/-- All file datablock ids brought into the scene by the import: the requested entities
of all requested data blocks plus their transitive dependencies. -/
def importedIds (file : BlendFile) (fm : String → String → Bool) (nr : Option String)
    (dbs : List String) : List Nat :=
  depClosure file.fileDeps (file.fileDeps.length + 1)
    ((dbs.flatMap (fun d => dataToIds file fm nr d)).dedup)

/-- The scene state after the `with bpy.data.libraries.load` block exits: the imported
datablocks and their dependency edges are added to `bpy.data`. -/
def afterImport (s : SceneState) (file : BlendFile) (fm : String → String → Bool)
    (nr : Option String) (dbs : List String) : SceneState :=
  let ids := importedIds file fm nr dbs
  { s with
    blocks := s.blocks ++ file.fileBlocks.filter (fun b => ids.contains b.bid)
    refs := s.refs ++ file.fileDeps.filter (fun e => ids.contains e.1) }

/-- Exception-propagating left fold: a Python `for` loop whose body may raise. -/
def foldE (f : α → β → Except String α) : α → List β → Except String α
  | a, [] => .ok a
  | a, b :: bs =>
    match f a b with
    | .ok a2 => foldE f a2 bs
    | .error e => .error e

/-- Whether the imported object of identity `j` passes the type filter of
`BlendLoader.load` with respect to the datablock list `bs`. -/
def keptB (ots : List String) (bs : List Datablock) (j : Nat) : Bool :=
  match bs.find? (fun b => b.bid == j) with
  | some b => ots.contains (strLower b.objType)
  | none => false

/-- The mutable locals of the `for data_block in data_blocks` processing loop of
`BlendLoader.load`: the host state, `loaded_objects` and `potential_parent_names`. -/
structure LoopState where
  st : SceneState
  loaded : List Nat
  potentialParents : List String
deriving Repr, DecidableEq

/-- The body of the `for obj in getattr(data_to, data_block)` loop for the "objects"
data block.  Accessing a removed datablock raises; a kept object is linked into the
scene collection (linking twice raises), appended to `loaded_objects`, and, when it is
a camera, made the active camera with `frame_end` set past its last keyframe; an object
of an undesired type is removed again, remembering its name for the merge step. -/
def processObject (ots : List String) (mo : Bool) (mon : String)
    (ls : LoopState) (i : Nat) : Except String LoopState :=
  match ls.st.blocks.find? (fun b => b.bid == i) with
  | none => .error "ReferenceError: StructRNA of type Object has been removed"
  | some obj =>
    if ots.contains (strLower obj.objType) then
      if ls.st.sceneLinks.contains i then
        .error "RuntimeError: Object can not be linked because it is already in the collection"
      else
        let st1 : SceneState := { ls.st with sceneLinks := ls.st.sceneLinks ++ [i] }
        let st2 : SceneState :=
          if obj.objType == "CAMERA" then
            { st1 with sceneCamera := some i,
                       frameEnd := cameraMaxKeyframe obj.animation + 1 }
          else st1
        let pp :=
          if mo && (obj.parent == none) && (mon == "parent_name") then
            ls.potentialParents ++ [obj.name]
          else ls.potentialParents
        .ok { st := st2, loaded := ls.loaded ++ [i], potentialParents := pp }
    else
      let pp :=
        if mo && (obj.parent == none) && (mon == "parent_name") then
          obj.name :: ls.potentialParents
        else ls.potentialParents
      .ok { st := removeBlock ls.st i, loaded := ls.loaded, potentialParents := pp }

/-- The body of the outer `for data_block in data_blocks` loop: the "objects" data
block gets the per-object treatment, every other data block appends its imported
entities to `loaded_objects` unconditionally. -/
def processBlock (dtF : String → List Nat) (ots : List String) (mo : Bool) (mon : String)
    (ls : LoopState) (d : String) : Except String LoopState :=
  if d == "objects" then foldE (processObject ots mo mon) ls (dtF d)
  else .ok { ls with loaded := ls.loaded ++ dtF d }

/-- The whole processing loop of `BlendLoader.load`, starting from the state after
the import with empty `loaded_objects` and `potential_parent_names`. -/
def processAll (dtF : String → List Nat) (dbs : List String) (ots : List String)
    (mo : Bool) (mon : String) (st : SceneState) : Except String LoopState :=
  foldE (processBlock dtF ots mo mon) { st := st, loaded := [], potentialParents := [] } dbs

/-- Modelled from the spec: `Utility.resolve_path` (defined in `src/utility/Utility.py`,
which is not part of the sources) resolves a path to the archive file; only the final
file name component matters here, so it is modelled as the identity. -/
def resolve_path (p : String) : String := p

/-- Python `str.split(sep)` for a one-character separator, over character lists. -/
def splitChar (sep : Char) : List Char → List (List Char)
  | [] => [[]]
  | c :: cs =>
    match splitChar sep cs with
    | [] => [[c]]
    | g :: gs => if c == sep then [] :: g :: gs else (c :: g) :: gs

/-- Python `path.split('/')[-1][:-6]`: the file name with its last six characters (the
`.blend` suffix) removed. -/
def pyBasenameMinus6 (path : String) : String :=
  let base := (splitChar '/' path.data).getLastD []
  String.mk (base.take (base.length - 6))

/-- Python `if parent_name[-4] == '.' and parent_name[-3:].isdigit(): parent_name =
parent_name[:-4]`: raises `IndexError` on names shorter than four characters, otherwise
strips a trailing `.NNN` numbering suffix. -/
def pyStripNumberSuffix (pn : String) : Except String String :=
  if pn.data.length < 4 then .error "IndexError: string index out of range"
  else if (pn.data.getD (pn.data.length - 4) ' ' == '.')
      && (pn.data.drop (pn.data.length - 3)).all (fun c => c.isDigit) then
    .ok (String.mk (pn.data.take (pn.data.length - 4)))
  else .ok pn

/-- The choice of the merged object's name: the file name, the first potential parent
name (with a `.NNN` suffix stripped; the file name when no potential parent exists), or
the configured custom name. -/
def computeParentName (path : String) (mon : String) (pp : List String) :
    Except String String :=
  if mon == "filename" then .ok (pyBasenameMinus6 path)
  else if mon == "parent_name" then
    let pn := match pp with
      | p :: _ => p
      | [] => pyBasenameMinus6 path
    pyStripNumberSuffix pn
  else .ok mon

/-- A fresh identity for `bpy.data.objects.new`: distinct from every datablock that
ever existed in this load (scene and archive alike). -/
def globalFreshId (s : SceneState) (file : BlendFile) : Nat :=
  (((s.blocks ++ file.fileBlocks).map (fun b => b.bid)).foldl max 0) + 1

/-- The `for loaded_object in loaded_objects` merge loop: reading `.parent` of a
datablock that is not an object raises `AttributeError`; objects that already have a
parent are skipped, parentless objects are reparented to the new parent object. -/
def reparentLoaded (pid : Nat) (loaded : List Nat) (st : SceneState) :
    Except String SceneState :=
  foldE (fun st2 i =>
    match st2.blocks.find? (fun b => b.bid == i) with
    | none => .error "ReferenceError: StructRNA has been removed"
    | some b =>
      if b.collection == "objects" then
        if b.parent == none then
          .ok { st2 with blocks := (st2.blocks.map
            (fun b2 => if b2.bid == i then { b2 with parent := some pid } else b2)) }
        else .ok st2
      else .error "AttributeError: datablock has no attribute parent") st loaded

/-- `bpy.data.objects.new(parent_name, None)`: a new empty object acting as parent. -/
def newEmptyObject (pid : Nat) (pn : String) : Datablock :=
  { bid := pid, collection := "objects", name := pn, objType := "EMPTY",
    parent := none, animation := none }

/-- The scene state right after the new parent object is created and linked. -/
def withParentLinked (pid : Nat) (pn : String) (st : SceneState) : SceneState :=
  { st with blocks := st.blocks ++ [newEmptyObject pid pn],
            sceneLinks := st.sceneLinks ++ [pid] }

/-- The `if merge_objects and len(loaded_objects) > 1` block: compute the parent name,
create a new empty parent object, link it to the scene collection, and reparent the
parentless loaded objects to it. -/
def mergeStage (pid : Nat) (path : String) (mon : String) (mo : Bool) (ls : LoopState) :
    Except String (SceneState × Option (String × Nat)) :=
  if mo && decide (ls.loaded.length > 1) then
    match computeParentName path mon ls.potentialParents with
    | .error e => .error e
    | .ok pn =>
      match reparentLoaded pid ls.loaded (withParentLinked pid pn ls.st) with
      | .error e => .error e
      | .ok st2 => .ok (st2, some (pn, pid))
  else .ok (ls.st, none)

/-- Everything `BlendLoader.load` produces, observable for verification: the final host
state, the validated configuration lists, `data_to`, `loaded_objects`, the datablocks
as they stood when the merge step ran, the merged parent (name and identity) when a
merge happened, and the returned list. -/
structure LoadOk where
  state : SceneState
  dataBlocks : List String
  objTypes : List String
  dataTo : List (String × List Nat)
  loadedObjects : List Nat
  preMergeBlocks : List Datablock
  parentInfo : Option (String × Nat)
  returned : List Nat
deriving Repr, DecidableEq

/-- The tail of `BlendLoader.load`: purge the orphans added by this load, then return
either `[bpy.data.objects[parent_name]]` (a lookup by name, raising `KeyError` when no
object of that name exists) or `loaded_objects`. -/
def finishLoad (ob : String → List Nat) (dtL : List (String × List Nat))
    (dbs ots : List String) (ls : LoopState)
    (mr : SceneState × Option (String × Nat)) : Except String LoadOk :=
  match mr.2 with
  | some (pn, pid) =>
    match (((_purge_added_orphans ob (dtGet dtL) mr.1).blocks.filter
        (fun b => b.collection == "objects")).find? (fun b => b.name == pn)) with
    | some b2 =>
      .ok { state := _purge_added_orphans ob (dtGet dtL) mr.1, dataBlocks := dbs,
            objTypes := ots, dataTo := dtL,
            loadedObjects := ls.loaded, preMergeBlocks := ls.st.blocks,
            parentInfo := some (pn, pid), returned := [b2.bid] }
    | none => .error "KeyError: parent name not found in bpy.data.objects"
  | none =>
    .ok { state := _purge_added_orphans ob (dtGet dtL) mr.1, dataBlocks := dbs,
          objTypes := ots, dataTo := dtL,
          loadedObjects := ls.loaded, preMergeBlocks := ls.st.blocks,
          parentInfo := none, returned := ls.loaded }

/-- `BlendLoader.load`, over an initial host state `s`, an archive `file`, and the
regex-matching oracle `fm` (modelling `re.fullmatch _ _ is not None`). -/
def load (s : SceneState) (file : BlendFile) (fm : String → String → Bool)
    (path : String) (obj_types : ConfigValue) (name_regrex : Option String)
    (data_blocks : ConfigValue) (merge_objects : Bool) (merged_object_name : String) :
    Except String LoadOk :=
  match _validate_and_standardizes_configured_list data_blocks valid_datablocks
      "data block" with
  | .error e => .error e
  | .ok dbs =>
    match _validate_and_standardizes_configured_list obj_types valid_object_types
        "object type" with
    | .error e => .error e
    | .ok ots =>
      match importBlocks file fm name_regrex dbs with
      | .error e => .error e
      | .ok dtL =>
        match processAll (dtGet dtL) dbs ots merge_objects merged_object_name
            (afterImport s file fm name_regrex dbs) with
        | .error e => .error e
        | .ok ls =>
          match mergeStage (globalFreshId s file) (resolve_path path)
              merged_object_name merge_objects ls with
          | .error e => .error e
          | .ok mr => finishLoad (collect_all_orphan_datablocks s) dtL dbs ots ls mr

end BlendLoader

namespace BlendLoaderExamples

open BlendLoader

/-- A scene holding one pre-existing orphan mesh datablock. -/
def sW : SceneState :=
  { blocks := [{ bid := 0, collection := "meshes", name := "OldMesh", objType := "",
                 parent := none, animation := none }]
    refs := [], sceneLinks := [], sceneCamera := none, frameEnd := 0 }

/-- An archive with a mesh object (depending on a mesh datablock) and a curve object. -/
def fW : BlendFile :=
  { fileBlocks :=
      [{ bid := 10, collection := "objects", name := "Tree.001", objType := "MESH",
         parent := none, animation := none },
       { bid := 11, collection := "objects", name := "Curve", objType := "CURVE",
         parent := none, animation := none },
       { bid := 12, collection := "meshes", name := "TreeMesh", objType := "",
         parent := none, animation := none }]
    fileDeps := [(10, 12)] }

/-- The matching oracle is irrelevant when `name_regrex` is `none`. -/
def fmNone : String → String → Bool := fun _ _ => false

/-- The run used by several witnesses: load the objects of `fW` into `sW`. -/
def runW : Except String LoadOk :=
  load sW fW fmNone "/tmp/tree.blend" (.list ["mesh", "empty"]) none (.str "objects")
    false "parent_name"

/-- The result of `runW` (defaulting to junk on error; `runW` is proved to be `.ok`). -/
def resW : LoadOk :=
  match runW with
  | .ok r => r
  | .error _ => { state := sW, dataBlocks := [], objTypes := [], dataTo := [],
                  loadedObjects := [], preMergeBlocks := [], parentInfo := none,
                  returned := [] }

/-- The empty scene. -/
def sE : SceneState :=
  { blocks := [], refs := [], sceneLinks := [], sceneCamera := none, frameEnd := 0 }

/-- An archive with two parentless mesh objects, used for the merge runs. -/
def fM : BlendFile :=
  { fileBlocks :=
      [{ bid := 10, collection := "objects", name := "Tree.001", objType := "MESH",
         parent := none, animation := none },
       { bid := 11, collection := "objects", name := "Rock", objType := "MESH",
         parent := none, animation := none }]
    fileDeps := [] }

/-- A merging run over `fM`: two objects are loaded, so a synthetic parent is made. -/
def runM : Except String LoadOk :=
  load sE fM fmNone "/tmp/tree.blend" (.list ["mesh", "empty"]) none (.str "objects")
    true "parent_name"

/-- The result of `runM`. -/
def resM : LoadOk :=
  match runM with
  | .ok r => r
  | .error _ => { state := sE, dataBlocks := [], objTypes := [], dataTo := [],
                  loadedObjects := [], preMergeBlocks := [], parentInfo := none,
                  returned := [] }

/-- An archive with a single mesh object. -/
def fS : BlendFile :=
  { fileBlocks :=
      [{ bid := 10, collection := "objects", name := "Tree.001", objType := "MESH",
         parent := none, animation := none }]
    fileDeps := [] }

/-- A merging run that loads only one object: no merge happens. -/
def runS : Except String LoadOk :=
  load sE fS fmNone "/tmp/tree.blend" (.list ["mesh", "empty"]) none (.str "objects")
    true "parent_name"

/-- The result of `runS`. -/
def resS : LoadOk :=
  match runS with
  | .ok r => r
  | .error _ => { state := sE, dataBlocks := [], objTypes := [], dataTo := [],
                  loadedObjects := [], preMergeBlocks := [], parentInfo := none,
                  returned := [] }

/-- An archive with a camera whose only keyframe sits at frame `-5`. -/
def fC : BlendFile :=
  { fileBlocks :=
      [{ bid := 20, collection := "objects", name := "Cam", objType := "CAMERA",
         parent := none, animation := some [[-5]] }]
    fileDeps := [] }

/-- A run importing the camera of `fC`. -/
def runC : Except String LoadOk :=
  load sE fC fmNone "/tmp/cam.blend" (.str "camera") none (.str "objects") false
    "parent_name"

/-- The result of `runC`. -/
def resC : LoadOk :=
  match runC with
  | .ok r => r
  | .error _ => { state := sE, dataBlocks := [], objTypes := [], dataTo := [],
                  loadedObjects := [], preMergeBlocks := [], parentInfo := none,
                  returned := [] }

/-- An archive with a single mesh datablock (no objects). -/
def fD : BlendFile :=
  { fileBlocks :=
      [{ bid := 30, collection := "meshes", name := "M", objType := "",
         parent := none, animation := none }]
    fileDeps := [] }

/-- A run importing a non-"objects" data block. -/
def runD : Except String LoadOk :=
  load sE fD fmNone "/tmp/m.blend" (.list ["mesh", "empty"]) none (.list ["meshes"])
    false "parent_name"

/-- The result of `runD`. -/
def resD : LoadOk :=
  match runD with
  | .ok r => r
  | .error _ => { state := sE, dataBlocks := [], objTypes := [], dataTo := [],
                  loadedObjects := [], preMergeBlocks := [], parentInfo := none,
                  returned := [] }

/-- A loop state holding a single camera object with keyframes `3, 7, 2`. -/
def lsC9 : LoopState :=
  { st := { blocks := [{ bid := 5, collection := "objects", name := "Cam",
                         objType := "CAMERA", parent := none,
                         animation := some [[3, 7], [2]] }],
            refs := [], sceneLinks := [], sceneCamera := none, frameEnd := 0 }
    loaded := [], potentialParents := [] }

end BlendLoaderExamples

namespace BlendLoader

/-! Helper lemmas about folds of `max`. -/

theorem foldl_max_init_le (l : List Int) (a : Int) : a ≤ l.foldl max a := by
  induction l generalizing a with
  | nil => exact le_refl a
  | cons c cs ih => exact le_trans (le_max_left a c) (ih (max a c))

theorem foldl_max_le_of_mem (l : List Int) (a k : Int) (hk : k ∈ l) :
    k ≤ l.foldl max a := by
  induction l generalizing a with
  | nil => cases hk
  | cons c cs ih =>
    rcases List.mem_cons.mp hk with h | h
    · subst h
      exact le_trans (le_max_right a k) (foldl_max_init_le cs (max a k))
    · exact ih (max a c) h

theorem foldl_max_eq_init_or_mem (l : List Int) (a : Int) :
    l.foldl max a = a ∨ l.foldl max a ∈ l := by
  induction l generalizing a with
  | nil => exact Or.inl rfl
  | cons c cs ih =>
    rcases ih (max a c) with h | h
    · rcases max_cases a c with ⟨hm, _⟩ | ⟨hm, _⟩
      · exact Or.inl (by rw [List.foldl_cons, h, hm])
      · exact Or.inr (by rw [List.foldl_cons, h, hm]; exact List.mem_cons_self c cs)
    · exact Or.inr (List.mem_cons_of_mem c h)

theorem cameraMaxKeyframe_eq_flatten (fcs : List (List Int)) :
    cameraMaxKeyframe (some fcs) = (fcs.flatten).foldl max (-1) := by
  show fcs.foldl (fun m curve => curve.foldl max m) (-1) = (fcs.flatten).foldl max (-1)
  generalize (-1 : Int) = a
  induction fcs generalizing a with
  | nil => rfl
  | cons c cs ih => simp only [List.foldl_cons, List.flatten_cons, List.foldl_append, ih]

end BlendLoader

/-- Claim C2: for every requested data block and every entity name listed in the
archive under that data block, the entity is selected for import if and only if
`name_regrex` is `None` (or empty) or the full match succeeds; in particular, when
`name_regrex` is `None` every entity of the requested data blocks is imported. -/
theorem claim_C2 (fm : String → String → Bool) (r : Option String) (file : BlendLoader.BlendFile)
    (d : String) (n : String) :
    (n ∈ BlendLoader.selectEntityNames fm r (BlendLoader.fileEntityNames file d) ↔
      n ∈ BlendLoader.fileEntityNames file d ∧
        (r = none ∨ r = some "" ∨ fm (r.getD "") n = true)) ∧
    BlendLoader.selectEntityNames fm none (BlendLoader.fileEntityNames file d) =
      BlendLoader.fileEntityNames file d := by
  constructor
  · rw [BlendLoader.selectEntityNames, List.mem_filter]
    refine and_congr_right (fun _ => ?_)
    cases r with
    | none => simp [BlendLoader.pyTruthy]
    | some s =>
      by_cases hs : s = ""
      · subst hs; simp [BlendLoader.pyTruthy]
      · simp [BlendLoader.pyTruthy, hs, Option.getD]
  · rw [BlendLoader.selectEntityNames]
    simp [BlendLoader.pyTruthy]

/-- Claim C2 witness: the selection property evaluated at a concrete archive, with no
regex configured. -/
theorem claim_C2_witness :
    (("Tree.001" ∈ BlendLoader.selectEntityNames BlendLoaderExamples.fmNone none
        (BlendLoader.fileEntityNames BlendLoaderExamples.fW "objects") ↔
      "Tree.001" ∈ BlendLoader.fileEntityNames BlendLoaderExamples.fW "objects" ∧
        ((none : Option String) = none ∨ (none : Option String) = some "" ∨
          BlendLoaderExamples.fmNone ((none : Option String).getD "") "Tree.001" = true)) ∧
    BlendLoader.selectEntityNames BlendLoaderExamples.fmNone none
        (BlendLoader.fileEntityNames BlendLoaderExamples.fW "objects") =
      BlendLoader.fileEntityNames BlendLoaderExamples.fW "objects") :=
  claim_C2 BlendLoaderExamples.fmNone none BlendLoaderExamples.fW "objects" "Tree.001"

/-- Claim C8 (amended to the code's behaviour on each branch): each configured element
of a `data_blocks` or `obj_types` argument is lowercased; validation succeeds with the
lowercased list exactly when every lowercased element is allowed, and otherwise raises
`"No such <element name>: <element>"` for an invalid element; a validation error makes
`BlendLoader.load` raise that very error before anything is imported. -/
theorem claim_C8 (cv : BlendLoader.ConfigValue) (allowed : List String) (en : String) :
    ((∀ e ∈ cv.toList.map BlendLoader.strLower, e ∈ allowed) →
      BlendLoader._validate_and_standardizes_configured_list cv allowed en =
        .ok (cv.toList.map BlendLoader.strLower)) ∧
    (∀ e ∈ cv.toList.map BlendLoader.strLower, e ∉ allowed →
      ∃ e2 ∈ cv.toList.map BlendLoader.strLower, e2 ∉ allowed ∧
        BlendLoader._validate_and_standardizes_configured_list cv allowed en =
          .error ("No such " ++ en ++ ": " ++ e2)) ∧
    (∀ s file fm path ot nr mo mon msg,
      BlendLoader._validate_and_standardizes_configured_list cv
          BlendLoader.valid_datablocks "data block" = .error msg →
      BlendLoader.load s file fm path ot nr cv mo mon = .error msg) ∧
    (∀ s file fm path dbc nr mo mon msg dbs,
      BlendLoader._validate_and_standardizes_configured_list dbc
          BlendLoader.valid_datablocks "data block" = .ok dbs →
      BlendLoader._validate_and_standardizes_configured_list cv
          BlendLoader.valid_object_types "object type" = .error msg →
      BlendLoader.load s file fm path cv nr dbc mo mon = .error msg) := by
  refine ⟨?_, ?_, ?_, ?_⟩
  · intro hall
    rw [BlendLoader._validate_and_standardizes_configured_list]
    have hn : (cv.toList.map (fun e => BlendLoader.strLower e)).find?
        (fun e => !allowed.contains e) = none := by
      rw [List.find?_eq_none]
      intro x hx
      have hx2 : x ∈ allowed := hall x hx
      simp [List.contains, List.elem_iff, hx2]
    rw [hn]
  · intro e he hbad
    rw [BlendLoader._validate_and_standardizes_configured_list]
    cases hf : (cv.toList.map (fun e => BlendLoader.strLower e)).find?
        (fun e => !allowed.contains e) with
    | none =>
      exfalso
      rw [List.find?_eq_none] at hf
      have := hf e he
      simp [List.contains, List.elem_iff] at this
      exact hbad this
    | some e2 =>
      refine ⟨e2, List.mem_of_find?_eq_some hf, ?_, rfl⟩
      have := List.find?_some hf
      simp only [Bool.not_eq_true'] at this
      intro hmem
      simp [List.contains, List.elem_iff, hmem] at this
  · intro s file fm path ot nr mo mon msg herr
    rw [BlendLoader.load, herr]
  · intro s file fm path dbc nr mo mon msg dbs hok herr
    rw [BlendLoader.load, hok, herr]

/-- Claim C8 witness: a valid configuration is lowercased and accepted, and an invalid
data block name makes `load` raise before importing. -/
theorem claim_C8_witness :
    BlendLoader._validate_and_standardizes_configured_list
        (.list ["MESH", "EMPTY"]) BlendLoader.valid_object_types "object type" =
      .ok ["mesh", "empty"] ∧
    BlendLoader.load BlendLoaderExamples.sE BlendLoaderExamples.fW
        BlendLoaderExamples.fmNone "p" (.str "mesh") none (.str "nosuch") false "x" =
      .error "No such data block: nosuch" :=
  ⟨(claim_C8 (.list ["MESH", "EMPTY"]) BlendLoader.valid_object_types "object type").1
      (by decide),
   (claim_C8 (.str "nosuch") BlendLoader.valid_datablocks "data block").2.2.1
      BlendLoaderExamples.sE BlendLoaderExamples.fW BlendLoaderExamples.fmNone "p"
      (.str "mesh") none false "x" "No such data block: nosuch" (by decide)⟩

/-- Claim C9 (amended): when `BlendLoader.load` processes an imported object of type
CAMERA that passes the filters (it is found in the data, its lowercased type is among
`obj_types`, and it is not yet linked), it makes the camera the scene's active camera
and sets `frame_end` to one plus the maximum of `-1` and all keyframe numbers of its
f-curves; in particular `frame_end` becomes `0` when the camera has no animation
data. -/
theorem claim_C9 (ots : List String) (mo : Bool) (mon : String)
    (ls : BlendLoader.LoopState) (i : Nat) (b : BlendLoader.Datablock)
    (hfind : ls.st.blocks.find? (fun bb => bb.bid == i) = some b)
    (hkeep : ots.contains (BlendLoader.strLower b.objType) = true)
    (hcam : b.objType = "CAMERA")
    (hnl : ls.st.sceneLinks.contains i = false) :
    ∃ ls2, BlendLoader.processObject ots mo mon ls i = .ok ls2 ∧
      ls2.st.sceneCamera = some i ∧
      (b.animation = none → ls2.st.frameEnd = 0) ∧
      (∀ fcs, b.animation = some fcs →
        (∀ k ∈ fcs.flatten, k + 1 ≤ ls2.st.frameEnd) ∧
        (ls2.st.frameEnd = 0 ∨ ∃ k ∈ fcs.flatten, ls2.st.frameEnd = k + 1) ∧
        0 ≤ ls2.st.frameEnd) := by
  rw [BlendLoader.processObject, hfind]
  rw [hcam] at hkeep
  simp only [hcam, hkeep, hnl, if_true, Bool.false_eq_true, if_false,
    beq_self_eq_true]
  refine ⟨_, rfl, rfl, ?_, ?_⟩
  · intro hanim
    simp [hanim, BlendLoader.cameraMaxKeyframe]
  · intro fcs hanim
    simp only [hanim]
    rw [BlendLoader.cameraMaxKeyframe_eq_flatten]
    refine ⟨?_, ?_, ?_⟩
    · intro k hk
      have := BlendLoader.foldl_max_le_of_mem fcs.flatten (-1) k hk
      omega
    · rcases BlendLoader.foldl_max_eq_init_or_mem fcs.flatten (-1) with h | h
      · left; rw [h]; rfl
      · right; exact ⟨_, h, rfl⟩
    · have := BlendLoader.foldl_max_init_le fcs.flatten (-1)
      omega

/-- Claim C9 witness: a camera with keyframes `3, 7, 2` is made the active camera and
`frame_end` becomes `8`. -/
theorem claim_C9_witness :
    ∃ ls2, BlendLoader.processObject ["camera"] false "parent_name"
        BlendLoaderExamples.lsC9 5 = .ok ls2 ∧
      ls2.st.sceneCamera = some 5 ∧
      ((BlendLoaderExamples.lsC9.st.blocks.getD 0 default).animation = none →
        ls2.st.frameEnd = 0) ∧
      (∀ fcs, (BlendLoaderExamples.lsC9.st.blocks.getD 0 default).animation = some fcs →
        (∀ k ∈ fcs.flatten, k + 1 ≤ ls2.st.frameEnd) ∧
        (ls2.st.frameEnd = 0 ∨ ∃ k ∈ fcs.flatten, ls2.st.frameEnd = k + 1) ∧
        0 ≤ ls2.st.frameEnd) :=
  claim_C9 ["camera"] false "parent_name" BlendLoaderExamples.lsC9 5
    (BlendLoaderExamples.lsC9.st.blocks.getD 0 default) (by decide) (by decide)
    (by decide) (by decide)

/-- Claim C9 counterexample: importing a camera whose only keyframe sits at frame `-5`
(so the maximum keyframe number over its f-curves is `-5`) leaves `frame_end` at `0`,
not at `-5 + 1 = -4` as the claim states, because the code folds `max` starting
from `-1`. -/
theorem claim_C9_counterexample :
    BlendLoaderExamples.runC = Except.ok BlendLoaderExamples.resC ∧
    (BlendLoaderExamples.resC.dataTo = [("objects", [20])] ∧
      BlendLoaderExamples.resC.state.sceneCamera = some 20 ∧
      (BlendLoaderExamples.fC.fileBlocks.getD 0 default).animation = some [[-5]]) ∧
    BlendLoaderExamples.resC.state.frameEnd = 0 ∧
    BlendLoaderExamples.resC.state.frameEnd ≠ (-5) + 1 := by
  refine ⟨by decide, ⟨by decide, by decide, by decide⟩, by decide, by decide⟩

namespace BlendLoader

/-! Helper lemmas about `removeBlock` and the orphan purge. -/

theorem pcClear_bid (i : Nat) (b : Datablock) : (pcClear i b).bid = b.bid := by
  rw [pcClear]; split <;> rfl

theorem pcClear_sigEq (i : Nat) (b : Datablock) : sigEq b (pcClear i b) := by
  rw [pcClear]; split
  · exact ⟨rfl, rfl, rfl, rfl, rfl⟩
  · exact ⟨rfl, rfl, rfl, rfl, rfl⟩

theorem sigEq_trans {a b c : Datablock} (h1 : sigEq a b) (h2 : sigEq b c) :
    sigEq a c := by
  obtain ⟨x1, x2, x3, x4, x5⟩ := h1
  obtain ⟨y1, y2, y3, y4, y5⟩ := h2
  exact ⟨y1.trans x1, y2.trans x2, y3.trans x3, y4.trans x4, y5.trans x5⟩

theorem mem_bidsOf {s : SceneState} {j : Nat} :
    j ∈ bidsOf s ↔ ∃ b ∈ s.blocks, b.bid = j := by
  rw [bidsOf]
  simp only [List.mem_map]

theorem removeBlock_blocks_mem {s : SceneState} {i : Nat} {b2 : Datablock} :
    b2 ∈ (removeBlock s i).blocks ↔
      ∃ b ∈ s.blocks, b.bid ≠ i ∧ b2 = pcClear i b := by
  show b2 ∈ (s.blocks.filter (fun b => !(b.bid == i))).map (pcClear i) ↔ _
  simp only [List.mem_map, List.mem_filter, Bool.not_eq_true', beq_eq_false_iff_ne]
  constructor
  · rintro ⟨b, ⟨hb, hne⟩, he⟩
    exact ⟨b, hb, hne, he.symm⟩
  · rintro ⟨b, hb, hne, he⟩
    exact ⟨b, ⟨hb, hne⟩, he.symm⟩

theorem removeBlock_bids_mem {s : SceneState} {i j : Nat} :
    j ∈ bidsOf (removeBlock s i) ↔ j ∈ bidsOf s ∧ j ≠ i := by
  constructor
  · intro h
    obtain ⟨b2, hb2, hbid⟩ := mem_bidsOf.mp h
    obtain ⟨b, hb, hne, he⟩ := removeBlock_blocks_mem.mp hb2
    have : b2.bid = b.bid := by rw [he, pcClear_bid]
    exact ⟨mem_bidsOf.mpr ⟨b, hb, by omega⟩, by omega⟩
  · rintro ⟨h, hne⟩
    obtain ⟨b, hb, hbid⟩ := mem_bidsOf.mp h
    refine mem_bidsOf.mpr ⟨pcClear i b, ?_, by rw [pcClear_bid]; exact hbid⟩
    exact removeBlock_blocks_mem.mpr ⟨b, hb, by omega, rfl⟩

theorem removeBlock_links_mem {s : SceneState} {i j : Nat} :
    j ∈ (removeBlock s i).sceneLinks ↔ j ∈ s.sceneLinks ∧ j ≠ i := by
  show j ∈ s.sceneLinks.filter (fun j => !(j == i)) ↔ _
  simp [List.mem_filter]

theorem removeBlock_length_le (s : SceneState) (i : Nat) :
    (removeBlock s i).blocks.length ≤ s.blocks.length := by
  show ((s.blocks.filter (fun b => !(b.bid == i))).map (pcClear i)).length ≤ _
  rw [List.length_map]
  exact List.length_filter_le _ _

theorem length_filter_lt_of_mem_not {α : Type} {l : List α} {p : α → Bool} {a : α}
    (ha : a ∈ l) (hp : p a = false) : (l.filter p).length < l.length := by
  induction l with
  | nil => cases ha
  | cons c cs ih =>
    rw [List.filter_cons]
    rcases List.mem_cons.mp ha with h | h
    · subst h
      rw [if_neg (by simp [hp])]
      simp only [List.length_cons]
      exact Nat.lt_succ_of_le (List.length_filter_le p cs)
    · by_cases hc : p c = true
      · rw [if_pos hc]
        simp only [List.length_cons]
        exact Nat.succ_lt_succ (ih h)
      · rw [if_neg (by simp [hc])]
        simp only [List.length_cons]
        exact Nat.lt_succ_of_lt (ih h)

theorem removeBlock_length_lt {s : SceneState} {i : Nat} (h : i ∈ bidsOf s) :
    (removeBlock s i).blocks.length < s.blocks.length := by
  obtain ⟨b, hb, hbid⟩ := mem_bidsOf.mp h
  show ((s.blocks.filter (fun b => !(b.bid == i))).map (pcClear i)).length < _
  rw [List.length_map]
  exact length_filter_lt_of_mem_not hb (by simp [hbid])

theorem removeBlock_nodup {s : SceneState} {i : Nat} (h : (bidsOf s).Nodup) :
    (bidsOf (removeBlock s i)).Nodup := by
  have : bidsOf (removeBlock s i) =
      (s.blocks.filter (fun b => !(b.bid == i))).map (fun b => b.bid) := by
    show ((s.blocks.filter (fun b => !(b.bid == i))).map (pcClear i)).map
        (fun b => b.bid) = _
    rw [List.map_map]
    congr 1
    funext b
    exact pcClear_bid i b
  rw [this]
  have hsub : (s.blocks.filter (fun b => !(b.bid == i))).Sublist s.blocks :=
    List.filter_sublist _
  have := hsub.map (fun b => b.bid)
  exact this.nodup h

end BlendLoader

namespace BlendLoader

/-! Lemmas about folding `removeBlock` over a list of removals. -/

theorem sigEq_refl (b : Datablock) : sigEq b b :=
  ⟨rfl, rfl, rfl, rfl, rfl⟩

theorem pcClear_parent_none {i : Nat} {b : Datablock} (h : b.parent = none) :
    (pcClear i b).parent = none := by
  rw [pcClear]
  split <;> simp [h]

theorem pcClear_parent_some {i q : Nat} {b : Datablock} (h : b.parent = some q)
    (hne : q ≠ i) : (pcClear i b).parent = some q := by
  rw [pcClear]
  split
  · rename_i hc
    rw [h] at hc
    simp at hc
    exact absurd hc hne
  · exact h

theorem foldl_remove_length_le (L : List Nat) (s : SceneState) :
    (L.foldl removeBlock s).blocks.length ≤ s.blocks.length := by
  induction L generalizing s with
  | nil => exact le_refl _
  | cons i rest ih => exact le_trans (ih (removeBlock s i)) (removeBlock_length_le s i)

theorem foldl_remove_length_lt {i : Nat} {rest : List Nat} {s : SceneState}
    (h : i ∈ bidsOf s) :
    (((i :: rest).foldl removeBlock s).blocks.length) < s.blocks.length := by
  rw [List.foldl_cons]
  exact lt_of_le_of_lt (foldl_remove_length_le rest _) (removeBlock_length_lt h)

theorem foldl_remove_bids_mem {L : List Nat} {s : SceneState} {j : Nat} :
    j ∈ bidsOf (L.foldl removeBlock s) ↔ j ∈ bidsOf s ∧ j ∉ L := by
  induction L generalizing s with
  | nil => simp
  | cons i rest ih =>
    rw [List.foldl_cons, ih, removeBlock_bids_mem]
    simp only [List.mem_cons]
    tauto

theorem foldl_remove_links_mem {L : List Nat} {s : SceneState} {j : Nat} :
    j ∈ (L.foldl removeBlock s).sceneLinks ↔ j ∈ s.sceneLinks ∧ j ∉ L := by
  induction L generalizing s with
  | nil => simp
  | cons i rest ih =>
    rw [List.foldl_cons, ih, removeBlock_links_mem]
    simp only [List.mem_cons]
    tauto

theorem foldl_remove_nodup {L : List Nat} {s : SceneState}
    (h : (bidsOf s).Nodup) : (bidsOf (L.foldl removeBlock s)).Nodup := by
  induction L generalizing s with
  | nil => exact h
  | cons i rest ih => exact ih (removeBlock_nodup h)

theorem foldl_remove_origin {L : List Nat} {s : SceneState} :
    ∀ b2 ∈ (L.foldl removeBlock s).blocks, ∃ b ∈ s.blocks, sigEq b b2 := by
  induction L generalizing s with
  | nil => exact fun b2 hb2 => ⟨b2, hb2, sigEq_refl b2⟩
  | cons i rest ih =>
    intro b2 hb2
    rw [List.foldl_cons] at hb2
    obtain ⟨b1, hb1, hsig1⟩ := ih b2 hb2
    obtain ⟨b, hb, _, he⟩ := removeBlock_blocks_mem.mp hb1
    exact ⟨b, hb, sigEq_trans (he ▸ pcClear_sigEq i b) hsig1⟩

theorem foldl_remove_pres {L : List Nat} {s : SceneState} {b : Datablock}
    (hb : b ∈ s.blocks) (hni : b.bid ∉ L) :
    ∃ b2 ∈ (L.foldl removeBlock s).blocks, sigEq b b2 ∧
      (b.parent = none → b2.parent = none) ∧
      (∀ q, b.parent = some q → q ∉ L → b2.parent = some q) := by
  induction L generalizing s b with
  | nil => exact ⟨b, hb, sigEq_refl b, fun h => h, fun _ hq _ => hq⟩
  | cons i rest ih =>
    have hbid : b.bid ≠ i := fun hc => hni (by rw [hc]; exact List.mem_cons_self i rest)
    have hb1 : pcClear i b ∈ (removeBlock s i).blocks :=
      removeBlock_blocks_mem.mpr ⟨b, hb, hbid, rfl⟩
    have hni1 : (pcClear i b).bid ∉ rest := by
      rw [pcClear_bid]
      exact fun hc => hni (List.mem_cons_of_mem i hc)
    obtain ⟨b2, hb2, hsig, hpn, hps⟩ := ih hb1 hni1
    rw [List.foldl_cons]
    refine ⟨b2, hb2, sigEq_trans (pcClear_sigEq i b) hsig, ?_, ?_⟩
    · intro hpar
      exact hpn (pcClear_parent_none hpar)
    · intro q hq hqni
      have hqi : q ≠ i := fun hc => hqni (by rw [hc]; exact List.mem_cons_self i rest)
      exact hps q (pcClear_parent_some hq hqi) (fun hc => hqni (List.mem_cons_of_mem i hc))

/-! Lemmas about the purge candidates. -/

theorem purgeCandidates_sound {ob dt : String → List Nat} {s : SceneState} {i : Nat}
    (h : i ∈ purgeCandidates ob dt s) :
    ∃ b ∈ s.blocks, b.bid = i ∧ isOrphan s b = true ∧
      (ob b.collection).contains i = false ∧ (dt b.collection).contains i = false := by
  rw [purgeCandidates] at h
  obtain ⟨c, _, hmem⟩ := List.mem_flatMap.mp h
  rw [List.mem_filter] at hmem
  obtain ⟨hcol, hcond⟩ := hmem
  rw [collect_all_orphan_datablocks] at hcol
  obtain ⟨b, hb, hbid⟩ := List.mem_map.mp hcol
  rw [List.mem_filter] at hb
  obtain ⟨hb, horph⟩ := hb
  rw [List.mem_filter] at hb
  obtain ⟨hb, hcoll⟩ := hb
  have hceq : b.collection = c := by simpa using hcoll
  rw [Bool.and_eq_true, Bool.not_eq_true', Bool.not_eq_true'] at hcond
  exact ⟨b, hb, hbid, horph, by rw [hceq]; exact hcond.1, by rw [hceq]; exact hcond.2⟩

theorem usedBy_of_link {s : SceneState} {j : Nat} (h : j ∈ s.sceneLinks) :
    usedBy s j = true := by
  rw [usedBy]
  simp
  tauto

theorem usedBy_of_parent {s : SceneState} {b : Datablock} {q : Nat}
    (hb : b ∈ s.blocks) (hq : b.parent = some q) : usedBy s q = true := by
  rw [usedBy]
  simp
  exact Or.inr ⟨b, hb, hq⟩

theorem not_candidate_of_protected {ob dt : String → List Nat} {s : SceneState}
    (hnd : (bidsOf s).Nodup) {b : Datablock} (hb : b ∈ s.blocks)
    (hprot : (dt b.collection).contains b.bid = true ∨
      (ob b.collection).contains b.bid = true ∨ b.bid ∈ s.sceneLinks) :
    b.bid ∉ purgeCandidates ob dt s := by
  intro hc
  obtain ⟨bc, hbc, hbid, horph, hob, hdt⟩ := purgeCandidates_sound hc
  have hbeq : bc = b := List.inj_on_of_nodup_map hnd hbc hb hbid
  subst hbeq
  rcases hprot with hp | hp | hp
  · rw [hp] at hdt; cases hdt
  · rw [hp] at hob; cases hob
  · rw [isOrphan, usedBy_of_link hp] at horph; cases horph

theorem not_candidate_of_used {ob dt : String → List Nat} {s : SceneState}
    {q : Nat} (hq : usedBy s q = true) : q ∉ purgeCandidates ob dt s := by
  intro hc
  obtain ⟨bc, _, hbid, horph, _, _⟩ := purgeCandidates_sound hc
  rw [isOrphan, hbid, hq] at horph
  cases horph

end BlendLoader

namespace BlendLoader

/-! Lemmas about the purge loop itself. -/

theorem purgeLoop_stable (ob dt : String → List Nat) :
    ∀ n s, s.blocks.length < n →
      purgeCandidates ob dt (purgeLoop ob dt n s) = [] ∧
      ∀ m, s.blocks.length < m → purgeLoop ob dt m s = purgeLoop ob dt n s := by
  intro n
  induction n using Nat.strong_induction_on with
  | _ n ih =>
    intro s hn
    match n, hn with
    | n + 1, hn =>
      by_cases he : (purgeCandidates ob dt s).isEmpty = true
      · have hres : purgeLoop ob dt (n + 1) s = s := by rw [purgeLoop, if_pos he]
        refine ⟨by rw [hres]; exact List.isEmpty_iff.mp he, ?_⟩
        intro m hm
        match m, hm with
        | m + 1, _ => rw [purgeLoop, if_pos he, hres]
      · have hlt : ((purgeCandidates ob dt s).foldl removeBlock s).blocks.length <
            s.blocks.length := by
          cases hc : purgeCandidates ob dt s with
          | nil => rw [hc] at he; simp at he
          | cons i rest =>
            have hmem : i ∈ purgeCandidates ob dt s := by
              rw [hc]; exact List.mem_cons_self i rest
            obtain ⟨b, hb, hbid, _, _, _⟩ := purgeCandidates_sound hmem
            exact foldl_remove_length_lt (mem_bidsOf.mpr ⟨b, hb, hbid⟩)
        have hres : purgeLoop ob dt (n + 1) s =
            purgeLoop ob dt n ((purgeCandidates ob dt s).foldl removeBlock s) := by
          rw [purgeLoop, if_neg he]
        have hn2 : ((purgeCandidates ob dt s).foldl removeBlock s).blocks.length < n := by
          omega
        obtain ⟨hfix, hstab⟩ := ih n (Nat.lt_succ_self n)
          ((purgeCandidates ob dt s).foldl removeBlock s) hn2
        refine ⟨by rw [hres]; exact hfix, ?_⟩
        intro m hm
        match m, hm with
        | m + 1, hm =>
          rw [purgeLoop, if_neg he, hres]
          have hm2 : ((purgeCandidates ob dt s).foldl removeBlock s).blocks.length < m := by
            omega
          rw [hstab m hm2]

theorem purgeLoop_protected (ob dt : String → List Nat) :
    ∀ (n : Nat) (s : SceneState) (b : Datablock),
      (bidsOf s).Nodup → b ∈ s.blocks →
      ((dt b.collection).contains b.bid = true ∨
        (ob b.collection).contains b.bid = true ∨ b.bid ∈ s.sceneLinks) →
      ∃ b2 ∈ (purgeLoop ob dt n s).blocks, sigEq b b2 ∧
        (b.bid ∈ s.sceneLinks → b.bid ∈ (purgeLoop ob dt n s).sceneLinks) ∧
        (b.parent = none → b2.parent = none) := by
  intro n
  induction n with
  | zero => exact fun s b _ hb _ => ⟨b, hb, sigEq_refl b, fun h => h, fun h => h⟩
  | succ n ih =>
    intro s b hnd hb hprot
    by_cases he : (purgeCandidates ob dt s).isEmpty = true
    · rw [purgeLoop, if_pos he]
      exact ⟨b, hb, sigEq_refl b, fun h => h, fun h => h⟩
    · rw [purgeLoop, if_neg he]
      have hnotc : b.bid ∉ purgeCandidates ob dt s :=
        not_candidate_of_protected hnd hb hprot
      obtain ⟨b1, hb1, hsig1, hpn1, _⟩ := foldl_remove_pres hb hnotc
      have hnd1 : (bidsOf ((purgeCandidates ob dt s).foldl removeBlock s)).Nodup :=
        foldl_remove_nodup hnd
      have hprot1 : (dt b1.collection).contains b1.bid = true ∨
          (ob b1.collection).contains b1.bid = true ∨
          b1.bid ∈ ((purgeCandidates ob dt s).foldl removeBlock s).sceneLinks := by
        obtain ⟨e1, e2, _, _, _⟩ := hsig1
        rcases hprot with hp | hp | hp
        · left; rw [e1, e2]; exact hp
        · right; left; rw [e1, e2]; exact hp
        · right; right
          rw [e1]
          exact foldl_remove_links_mem.mpr ⟨hp, hnotc⟩
      obtain ⟨b2, hb2, hsig2, hlink2, hpn2⟩ := ih _ b1 hnd1 hb1 hprot1
      refine ⟨b2, hb2, sigEq_trans hsig1 hsig2, ?_, fun hp => hpn2 (hpn1 hp)⟩
      intro hl
      have hl1 : b1.bid ∈ ((purgeCandidates ob dt s).foldl removeBlock s).sceneLinks := by
        rw [hsig1.1]
        exact foldl_remove_links_mem.mpr ⟨hl, hnotc⟩
      have := hlink2 hl1
      rw [hsig1.1] at this
      exact this

theorem purgeLoop_child_parent (ob dt : String → List Nat) :
    ∀ (n : Nat) (s : SceneState) (b : Datablock) (q : Nat),
      (bidsOf s).Nodup → b ∈ s.blocks → b.parent = some q →
      ((dt b.collection).contains b.bid = true ∨ b.bid ∈ s.sceneLinks) →
      ∃ b2 ∈ (purgeLoop ob dt n s).blocks, sigEq b b2 ∧ b2.parent = some q := by
  intro n
  induction n with
  | zero => exact fun s b q _ hb hpar _ => ⟨b, hb, sigEq_refl b, hpar⟩
  | succ n ih =>
    intro s b q hnd hb hpar hprot
    by_cases he : (purgeCandidates ob dt s).isEmpty = true
    · rw [purgeLoop, if_pos he]
      exact ⟨b, hb, sigEq_refl b, hpar⟩
    · rw [purgeLoop, if_neg he]
      have hnotc : b.bid ∉ purgeCandidates ob dt s :=
        not_candidate_of_protected hnd hb (hprot.elim Or.inl (fun h => Or.inr (Or.inr h)))
      have hqused : usedBy s q = true := usedBy_of_parent hb hpar
      have hnotcq : q ∉ purgeCandidates ob dt s := not_candidate_of_used hqused
      obtain ⟨b1, hb1, hsig1, _, hps⟩ := foldl_remove_pres hb hnotc
      have hpar1 : b1.parent = some q := hps q hpar hnotcq
      have hnd1 : (bidsOf ((purgeCandidates ob dt s).foldl removeBlock s)).Nodup :=
        foldl_remove_nodup hnd
      have hprot1 : (dt b1.collection).contains b1.bid = true ∨
          b1.bid ∈ ((purgeCandidates ob dt s).foldl removeBlock s).sceneLinks := by
        obtain ⟨e1, e2, _, _, _⟩ := hsig1
        rcases hprot with hp | hp
        · left; rw [e1, e2]; exact hp
        · right; rw [e1]; exact foldl_remove_links_mem.mpr ⟨hp, hnotc⟩
      obtain ⟨b2, hb2, hsig2, hpar2⟩ := ih _ b1 q hnd1 hb1 hpar1 hprot1
      exact ⟨b2, hb2, sigEq_trans hsig1 hsig2, hpar2⟩

theorem purgeLoop_origin (ob dt : String → List Nat) :
    ∀ (n : Nat) (s : SceneState),
      ∀ b2 ∈ (purgeLoop ob dt n s).blocks, ∃ b ∈ s.blocks, sigEq b b2 := by
  intro n
  induction n with
  | zero => exact fun s b2 hb2 => ⟨b2, hb2, sigEq_refl b2⟩
  | succ n ih =>
    intro s b2 hb2
    by_cases he : (purgeCandidates ob dt s).isEmpty = true
    · rw [purgeLoop, if_pos he] at hb2
      exact ⟨b2, hb2, sigEq_refl b2⟩
    · rw [purgeLoop, if_neg he] at hb2
      obtain ⟨b1, hb1, hsig1⟩ := ih _ b2 hb2
      obtain ⟨b, hb, hsig⟩ := foldl_remove_origin b1 hb1
      exact ⟨b, hb, sigEq_trans hsig hsig1⟩

theorem purgeLoop_bids_monotone (ob dt : String → List Nat) :
    ∀ (n : Nat) (s : SceneState) (j : Nat),
      j ∈ bidsOf (purgeLoop ob dt n s) → j ∈ bidsOf s := by
  intro n
  induction n with
  | zero => exact fun s j h => h
  | succ n ih =>
    intro s j h
    by_cases he : (purgeCandidates ob dt s).isEmpty = true
    · rw [purgeLoop, if_pos he] at h; exact h
    · rw [purgeLoop, if_neg he] at h
      exact (foldl_remove_bids_mem.mp (ih _ j h)).1

theorem purgeLoop_links_monotone (ob dt : String → List Nat) :
    ∀ (n : Nat) (s : SceneState) (j : Nat),
      j ∈ (purgeLoop ob dt n s).sceneLinks → j ∈ s.sceneLinks := by
  intro n
  induction n with
  | zero => exact fun s j h => h
  | succ n ih =>
    intro s j h
    by_cases he : (purgeCandidates ob dt s).isEmpty = true
    · rw [purgeLoop, if_pos he] at h; exact h
    · rw [purgeLoop, if_neg he] at h
      exact (foldl_remove_links_mem.mp (ih _ j h)).1

theorem purgeLoop_nodup (ob dt : String → List Nat) :
    ∀ (n : Nat) (s : SceneState),
      (bidsOf s).Nodup → (bidsOf (purgeLoop ob dt n s)).Nodup := by
  intro n
  induction n with
  | zero => exact fun s h => h
  | succ n ih =>
    intro s h
    by_cases he : (purgeCandidates ob dt s).isEmpty = true
    · rw [purgeLoop, if_pos he]; exact h
    · rw [purgeLoop, if_neg he]
      exact ih _ (foldl_remove_nodup h)

theorem candidates_empty_no_new_orphans {ob dt : String → List Nat} {t : SceneState}
    (h : purgeCandidates ob dt t = []) :
    ∀ b ∈ t.blocks, isOrphan t b = true →
      (ob b.collection).contains b.bid = true ∨
      (dt b.collection).contains b.bid = true := by
  intro b hb horph
  by_cases h1 : (ob b.collection).contains b.bid = true
  · exact Or.inl h1
  by_cases h2 : (dt b.collection).contains b.bid = true
  · exact Or.inr h2
  exfalso
  have hmem : b.bid ∈ purgeCandidates ob dt t := by
    rw [purgeCandidates]
    apply List.mem_flatMap.mpr
    refine ⟨b.collection, ?_, ?_⟩
    · rw [collectionNames]
      exact List.mem_dedup.mpr (List.mem_map.mpr ⟨b, hb, rfl⟩)
    · rw [List.mem_filter]
      refine ⟨?_, ?_⟩
      · rw [collect_all_orphan_datablocks]
        exact List.mem_map.mpr
          ⟨b, List.mem_filter.mpr ⟨List.mem_filter.mpr ⟨hb, by simp⟩, horph⟩, rfl⟩
      · rw [Bool.and_eq_true, Bool.not_eq_true', Bool.not_eq_true']
        exact ⟨Bool.eq_false_iff.mpr (fun hc => h1 hc), Bool.eq_false_iff.mpr (fun hc => h2 hc)⟩
  rw [h] at hmem
  cases hmem

end BlendLoader

namespace BlendLoader

/-! Inversion lemmas for the stages of `load`. -/

theorem finishLoad_parts {ob : String → List Nat} {dtL : List (String × List Nat)}
    {dbs ots : List String} {ls : LoopState} {mr : SceneState × Option (String × Nat)}
    {r : LoadOk} (h : finishLoad ob dtL dbs ots ls mr = .ok r) :
    r.state = _purge_added_orphans ob (dtGet dtL) mr.1 ∧ r.dataBlocks = dbs ∧
    r.objTypes = ots ∧ r.dataTo = dtL ∧ r.loadedObjects = ls.loaded ∧
    r.preMergeBlocks = ls.st.blocks ∧ r.parentInfo = mr.2 ∧
    (mr.2 = none → r.returned = ls.loaded) ∧
    (∀ pn pid, mr.2 = some (pn, pid) →
      ∃ b2, (((_purge_added_orphans ob (dtGet dtL) mr.1).blocks.filter
          (fun b => b.collection == "objects")).find? (fun b => b.name == pn)) = some b2 ∧
        r.returned = [b2.bid]) := by
  obtain ⟨mst, mopt⟩ := mr
  cases mopt with
  | none =>
    simp only [finishLoad] at h
    injection h with h
    subst h
    refine ⟨rfl, rfl, rfl, rfl, rfl, rfl, rfl, fun _ => rfl, ?_⟩
    intro pn pid hc
    exact Option.noConfusion hc
  | some pnpid =>
    obtain ⟨pn0, pid0⟩ := pnpid
    simp only [finishLoad] at h
    cases hf : (((_purge_added_orphans ob (dtGet dtL) (mst, some (pn0, pid0)).1).blocks.filter
        (fun b => b.collection == "objects")).find? (fun b => b.name == pn0)) with
    | none => rw [hf] at h; cases h
    | some b2 =>
      rw [hf] at h
      injection h with h
      subst h
      refine ⟨rfl, rfl, rfl, rfl, rfl, rfl, rfl, ?_, ?_⟩
      · intro hc; exact Option.noConfusion hc
      · intro pn pid hc
        injection hc with hc
        have he1 : pn0 = pn := congrArg Prod.fst hc
        subst he1
        exact ⟨b2, hf, rfl⟩

theorem load_ok_inv {s : SceneState} {file : BlendFile} {fm : String → String → Bool}
    {path : String} {otc : ConfigValue} {nr : Option String} {dbc : ConfigValue}
    {mo : Bool} {mon : String} {r : LoadOk}
    (hok : load s file fm path otc nr dbc mo mon = .ok r) :
    ∃ dbs ots dtL ls mr,
      _validate_and_standardizes_configured_list dbc valid_datablocks "data block" =
        .ok dbs ∧
      _validate_and_standardizes_configured_list otc valid_object_types "object type" =
        .ok ots ∧
      importBlocks file fm nr dbs = .ok dtL ∧
      processAll (dtGet dtL) dbs ots mo mon (afterImport s file fm nr dbs) = .ok ls ∧
      mergeStage (globalFreshId s file) (resolve_path path) mon mo ls = .ok mr ∧
      finishLoad (collect_all_orphan_datablocks s) dtL dbs ots ls mr = .ok r := by
  rw [load] at hok
  split at hok
  · exact Except.noConfusion hok
  · rename_i dbs h1
    split at hok
    · exact Except.noConfusion hok
    · rename_i ots h2
      split at hok
      · exact Except.noConfusion hok
      · rename_i dtL h3
        split at hok
        · exact Except.noConfusion hok
        · rename_i ls h4
          split at hok
          · exact Except.noConfusion hok
          · rename_i mr h5
            exact ⟨dbs, ots, dtL, ls, mr, h1, h2, h3, h4, h5, hok⟩

theorem importBlocks_ok {file : BlendFile} {fm : String → String → Bool}
    {nr : Option String} {dbs : List String} {dtL : List (String × List Nat)}
    (h : importBlocks file fm nr dbs = .ok dtL) :
    dtL = mkDataTo file fm nr dbs ∧ ∀ d ∈ dbs, valid_datablocks.contains d = true := by
  rw [importBlocks] at h
  cases hf : dbs.find? (fun d => !valid_datablocks.contains d) with
  | some d => rw [hf] at h; cases h
  | none =>
    rw [hf] at h
    injection h with h
    refine ⟨h.symm, ?_⟩
    intro d hd
    rw [List.find?_eq_none] at hf
    have := hf d hd
    simp only [Bool.not_eq_true', Bool.not_eq_false] at this
    exact this

theorem dtGet_mkDataTo (file : BlendFile) (fm : String → String → Bool)
    (nr : Option String) (dbs : List String) (c : String) :
    dtGet (mkDataTo file fm nr dbs) c =
      if dbs.contains c then dataToIds file fm nr c else [] := by
  induction dbs with
  | nil => rfl
  | cons d rest ih =>
    rw [mkDataTo, List.map_cons, dtGet]
    by_cases hdc : d = c
    · subst hdc
      rw [List.find?_cons_of_pos _ (by simp)]
      simp
    · rw [List.find?_cons_of_neg _ (by simp [hdc])]
      rw [mkDataTo] at ih
      rw [dtGet] at ih
      rw [ih]
      have hne : (c == d) = false := by
        rw [beq_eq_false_iff_ne]
        exact fun h => hdc h.symm
      rw [List.contains_cons, hne, Bool.false_or]

end BlendLoader

/-- Claim C6: the orphan-cleanup pass terminates for every input: each repetition of
the `while` loop of `_purge_added_orphans` removes at least one datablock from the
finite datablock list, so `s.blocks.length + 1` rounds reach a state with no removable
orphan left, and any further fuel changes nothing. -/
theorem claim_C6 (ob dt : String → List Nat) (s : BlendLoader.SceneState) :
    BlendLoader.purgeCandidates ob dt (BlendLoader._purge_added_orphans ob dt s) = [] ∧
    ∀ k, BlendLoader.purgeLoop ob dt (s.blocks.length + 1 + k) s =
      BlendLoader._purge_added_orphans ob dt s := by
  have h := BlendLoader.purgeLoop_stable ob dt (s.blocks.length + 1) s (by omega)
  exact ⟨h.1, fun k => h.2 (s.blocks.length + 1 + k) (by omega)⟩

/-- Claim C4: the orphan cleanup only removes resources created as side effects of
the import: a datablock that was already an orphan before the load (it is listed in
`orphans_before` for its collection) or that was deliberately imported (listed in
`data_to` for its collection) is still present, unchanged except possibly for a cleared
parent pointer, after `_purge_added_orphans`. -/
theorem claim_C4 (ob dt : String → List Nat) (s : BlendLoader.SceneState)
    (hnd : (BlendLoader.bidsOf s).Nodup) (b : BlendLoader.Datablock)
    (hb : b ∈ s.blocks)
    (hprot : (ob b.collection).contains b.bid = true ∨
      (dt b.collection).contains b.bid = true) :
    ∃ b2 ∈ (BlendLoader._purge_added_orphans ob dt s).blocks, BlendLoader.sigEq b b2 := by
  have h := BlendLoader.purgeLoop_protected ob dt (s.blocks.length + 1) s b hnd hb
    (hprot.elim (fun h => Or.inr (Or.inl h)) Or.inl)
  obtain ⟨b2, hb2, hsig, _⟩ := h
  exact ⟨b2, hb2, hsig⟩

/-- Claim C4 witness: a pre-existing orphan mesh datablock survives the purge. -/
theorem claim_C4_witness :
    ∃ b2 ∈ (BlendLoader._purge_added_orphans (fun _ => [0]) (fun _ => [])
        BlendLoaderExamples.sW).blocks,
      BlendLoader.sigEq (BlendLoaderExamples.sW.blocks.getD 0 default) b2 :=
  claim_C4 (fun _ => [0]) (fun _ => []) BlendLoaderExamples.sW (by decide)
    (BlendLoaderExamples.sW.blocks.getD 0 default) (by decide) (Or.inl (by decide))

/-- Claim C3: after `BlendLoader.load` returns, no orphan created as a side effect of
the import remains: every datablock that is an orphan in the final state either was
already an orphan of its collection before the load or was deliberately imported into
`data_to` — orphans that only became orphans through the removal of other orphans
included, since the purge loop reruns until nothing is removable. -/
theorem claim_C3 (s : BlendLoader.SceneState) (file : BlendLoader.BlendFile)
    (fm : String → String → Bool) (path : String) (otc : BlendLoader.ConfigValue)
    (nr : Option String) (dbc : BlendLoader.ConfigValue) (mo : Bool) (mon : String)
    (r : BlendLoader.LoadOk)
    (hok : BlendLoader.load s file fm path otc nr dbc mo mon = .ok r) :
    ∀ b ∈ r.state.blocks, BlendLoader.isOrphan r.state b = true →
      (BlendLoader.collect_all_orphan_datablocks s b.collection).contains b.bid = true ∨
      (BlendLoader.dtGet r.dataTo b.collection).contains b.bid = true := by
  obtain ⟨dbs, ots, dtL, ls, mr, _, _, _, _, _, hfin⟩ := BlendLoader.load_ok_inv hok
  obtain ⟨hst, _, _, hdt, _⟩ := BlendLoader.finishLoad_parts hfin
  intro b hb horph
  have hfix : BlendLoader.purgeCandidates (BlendLoader.collect_all_orphan_datablocks s)
      (BlendLoader.dtGet dtL) r.state = [] := by
    rw [hst, BlendLoader._purge_added_orphans]
    exact (BlendLoader.purgeLoop_stable _ _ (mr.1.blocks.length + 1) mr.1 (by omega)).1
  have := BlendLoader.candidates_empty_no_new_orphans hfix b hb horph
  rw [hdt]
  exact this

/-- Claim C3 witness: in the concrete run `runW`, the only final orphan is the mesh
datablock that was already an orphan before the load. -/
theorem claim_C3_witness :
    (BlendLoader.collect_all_orphan_datablocks BlendLoaderExamples.sW
        (BlendLoaderExamples.resW.state.blocks.getD 0 default).collection).contains
        (BlendLoaderExamples.resW.state.blocks.getD 0 default).bid = true ∨
    (BlendLoader.dtGet BlendLoaderExamples.resW.dataTo
        (BlendLoaderExamples.resW.state.blocks.getD 0 default).collection).contains
        (BlendLoaderExamples.resW.state.blocks.getD 0 default).bid = true :=
  claim_C3 BlendLoaderExamples.sW BlendLoaderExamples.fW BlendLoaderExamples.fmNone
    "/tmp/tree.blend" (.list ["mesh", "empty"]) none (.str "objects") false
    "parent_name" BlendLoaderExamples.resW (by decide)
    (BlendLoaderExamples.resW.state.blocks.getD 0 default) (by decide) (by decide)

namespace BlendLoader

/-! Lemmas about one pass of `processObject` over the imported objects. -/

theorem pcClear_objType (i : Nat) (b : Datablock) :
    (pcClear i b).objType = b.objType := by
  rw [pcClear]; split <;> rfl

theorem find?_bid_eq_of_nodup {bs : List Datablock}
    (hnd : (bs.map (fun b => b.bid)).Nodup) {b : Datablock} (hb : b ∈ bs) :
    bs.find? (fun bb => bb.bid == b.bid) = some b := by
  induction bs with
  | nil => cases hb
  | cons c cs ih =>
    rw [List.map_cons, List.nodup_cons] at hnd
    rcases List.mem_cons.mp hb with h | h
    · subst h
      rw [List.find?_cons_of_pos _ (by simp)]
    · by_cases hc : c.bid = b.bid
      · exact absurd (hc ▸ List.mem_map.mpr ⟨b, h, rfl⟩) hnd.1
      · rw [List.find?_cons_of_neg _ (by simp [hc])]
        exact ih hnd.2 h

theorem keptB_eq_of_mem {ots : List String} {bs : List Datablock}
    (hnd : (bs.map (fun b => b.bid)).Nodup) {b : Datablock} (hb : b ∈ bs) :
    keptB ots bs b.bid = ots.contains (strLower b.objType) := by
  rw [keptB, find?_bid_eq_of_nodup hnd hb]

theorem find?_filter_map_pc (bs : List Datablock) (i j : Nat) (hne : j ≠ i) :
    ((bs.filter (fun b => !(b.bid == i))).map (pcClear i)).find?
        (fun b => b.bid == j) =
      (bs.find? (fun b => b.bid == j)).map (pcClear i) := by
  induction bs with
  | nil => rfl
  | cons c cs ih =>
    rw [List.filter_cons]
    by_cases hci : c.bid = i
    · rw [if_neg (by simp [hci])]
      rw [List.find?_cons_of_neg _ (by simp [hci]; exact fun h => hne h.symm), ih]
    · rw [if_pos (by simp [hci])]
      by_cases hcj : c.bid = j
      · rw [List.map_cons, List.find?_cons_of_pos _ (by simp [pcClear_bid, hcj]),
          List.find?_cons_of_pos _ (by simp [hcj])]
        rfl
      · rw [List.map_cons, List.find?_cons_of_neg _ (by simp [pcClear_bid, hcj]),
          List.find?_cons_of_neg _ (by simp [hcj])]
        exact ih

theorem find?_removeBlock {s : SceneState} {i j : Nat} (hne : j ≠ i) :
    (removeBlock s i).blocks.find? (fun b => b.bid == j) =
      (s.blocks.find? (fun b => b.bid == j)).map (pcClear i) :=
  find?_filter_map_pc s.blocks i j hne

theorem keptB_removeBlock {ots : List String} {s : SceneState} {i : Nat}
    {b : Datablock} (hf : s.blocks.find? (fun bb => bb.bid == i) = some b)
    (hcont : ots.contains (strLower b.objType) = false) :
    ∀ j, keptB ots (removeBlock s i).blocks j = keptB ots s.blocks j := by
  intro j
  by_cases hji : j = i
  · subst hji
    have habs : (removeBlock s j).blocks.find? (fun bb => bb.bid == j) = none := by
      rw [List.find?_eq_none]
      intro bb hbb
      intro hc
      have hjj : j ∈ bidsOf (removeBlock s j) :=
        mem_bidsOf.mpr ⟨bb, hbb, by simpa using hc⟩
      exact absurd (removeBlock_bids_mem.mp hjj).2 (by simp)
    rw [keptB, keptB, habs, hf]
    exact hcont.symm
  · rw [keptB, keptB, find?_removeBlock hji]
    cases hfj : s.blocks.find? (fun bb => bb.bid == j) with
    | none => rfl
    | some bb => simp [pcClear_objType]

theorem po_cases {ots : List String} {mo : Bool} {mon : String} {ls ls2 : LoopState}
    {i : Nat} (h : processObject ots mo mon ls i = .ok ls2) :
    ∃ b, ls.st.blocks.find? (fun bb => bb.bid == i) = some b ∧
      ((ots.contains (strLower b.objType) = true ∧
        ls.st.sceneLinks.contains i = false ∧
        ls2.st.blocks = ls.st.blocks ∧
        ls2.st.sceneLinks = ls.st.sceneLinks ++ [i] ∧
        ls2.loaded = ls.loaded ++ [i]) ∨
       (ots.contains (strLower b.objType) = false ∧
        ls2.st = removeBlock ls.st i ∧ ls2.loaded = ls.loaded)) := by
  rw [processObject] at h
  split at h
  · exact Except.noConfusion h
  · rename_i b hf
    refine ⟨b, hf, ?_⟩
    split at h
    · rename_i hcont
      split at h
      · exact Except.noConfusion h
      · rename_i hnl
        injection h with h
        subst h
        refine Or.inl ⟨hcont, by simpa using hnl, ?_, ?_, rfl⟩
        · split <;> rfl
        · split <;> rfl
    · rename_i hcont
      injection h with h
      subst h
      exact Or.inr ⟨by simpa using hcont, rfl, rfl⟩

end BlendLoader

namespace BlendLoader

theorem pass_loaded {ots : List String} {mo : Bool} {mon : String} :
    ∀ (ids : List Nat) (ls ls' : LoopState),
      foldE (processObject ots mo mon) ls ids = .ok ls' →
      ls'.loaded = ls.loaded ++ ids.filter (keptB ots ls.st.blocks) := by
  intro ids
  induction ids with
  | nil =>
    intro ls ls' h
    injection h with h
    subst h
    simp
  | cons i rest ih =>
    intro ls ls' h
    rw [foldE] at h
    cases hpo : processObject ots mo mon ls i with
    | error e => rw [hpo] at h; exact Except.noConfusion h
    | ok ls1 =>
      rw [hpo] at h
      obtain ⟨b, hf, hcase⟩ := po_cases hpo
      have hkb : keptB ots ls.st.blocks i = ots.contains (strLower b.objType) := by
        rw [keptB, hf]
      rcases hcase with ⟨hcont, _, hbl, _, hld⟩ | ⟨hcont, hst, hld⟩
      · rw [List.filter_cons, hkb, hcont, if_pos rfl]
        have := ih ls1 ls' h
        rw [this, hld, hbl]
        simp
      · rw [List.filter_cons, hkb, hcont, if_neg (by simp)]
        have := ih ls1 ls' h
        rw [this, hld, hst]
        congr 1
        exact List.filter_congr (fun j _ => keptB_removeBlock hf hcont j)

theorem pass_links_mem {ots : List String} {mo : Bool} {mon : String} :
    ∀ (ids : List Nat) (ls ls' : LoopState),
      foldE (processObject ots mo mon) ls ids = .ok ls' →
      ∀ j, j ∈ ls'.st.sceneLinks ↔
        ((j ∈ ls.st.sceneLinks ∨ (j ∈ ids ∧ keptB ots ls.st.blocks j = true)) ∧
          ¬(j ∈ ids ∧ keptB ots ls.st.blocks j = false)) := by
  intro ids
  induction ids with
  | nil =>
    intro ls ls' h j
    injection h with h
    subst h
    simp
  | cons i rest ih =>
    intro ls ls' h j
    rw [foldE] at h
    cases hpo : processObject ots mo mon ls i with
    | error e => rw [hpo] at h; exact Except.noConfusion h
    | ok ls1 =>
      rw [hpo] at h
      obtain ⟨b, hf, hcase⟩ := po_cases hpo
      have hkb : keptB ots ls.st.blocks i = ots.contains (strLower b.objType) := by
        rw [keptB, hf]
      have hmem : ∀ x, x ∈ i :: rest ↔ (x = i ∨ x ∈ rest) := fun x => List.mem_cons
      rcases hcase with ⟨hcont, _, hbl, hlk, _⟩ | ⟨hcont, hst, _⟩
      · have hkbi : keptB ots ls.st.blocks i = true := by rw [hkb]; exact hcont
        have hiff := ih ls1 ls' h j
        rw [hbl] at hiff
        rw [hiff, hlk]
        simp only [List.mem_append, List.mem_singleton, hmem]
        clear hiff h hpo hf hkb ih hbl hlk hcont
        by_cases hji : j = i
        · subst hji
          simp [hkbi]
        · simp [hji]
      · have hkbi : keptB ots ls.st.blocks i = false := by rw [hkb]; exact hcont
        have hkeq : ∀ x, keptB ots ls1.st.blocks x = keptB ots ls.st.blocks x := by
          intro x
          rw [hst]
          exact keptB_removeBlock hf hcont x
        have hiff := ih ls1 ls' h j
        rw [hiff]
        have hl1 : j ∈ ls1.st.sceneLinks ↔ j ∈ ls.st.sceneLinks ∧ j ≠ i := by
          rw [hst]
          exact removeBlock_links_mem
        rw [hl1, hkeq]
        simp only [hmem]
        clear hiff h hpo hf hkb ih hl1 hkeq hst hcont
        by_cases hji : j = i
        · subst hji
          simp [hkbi]
        · simp [hji]

theorem pass_bids_mem {ots : List String} {mo : Bool} {mon : String} :
    ∀ (ids : List Nat) (ls ls' : LoopState),
      foldE (processObject ots mo mon) ls ids = .ok ls' →
      ∀ j, j ∈ bidsOf ls'.st ↔
        (j ∈ bidsOf ls.st ∧ ¬(j ∈ ids ∧ keptB ots ls.st.blocks j = false)) := by
  intro ids
  induction ids with
  | nil =>
    intro ls ls' h j
    injection h with h
    subst h
    simp
  | cons i rest ih =>
    intro ls ls' h j
    rw [foldE] at h
    cases hpo : processObject ots mo mon ls i with
    | error e => rw [hpo] at h; exact Except.noConfusion h
    | ok ls1 =>
      rw [hpo] at h
      obtain ⟨b, hf, hcase⟩ := po_cases hpo
      have hkb : keptB ots ls.st.blocks i = ots.contains (strLower b.objType) := by
        rw [keptB, hf]
      have hmem : ∀ x, x ∈ i :: rest ↔ (x = i ∨ x ∈ rest) := fun x => List.mem_cons
      rcases hcase with ⟨hcont, _, hbl, _, _⟩ | ⟨hcont, hst, _⟩
      · have hkbi : keptB ots ls.st.blocks i = true := by rw [hkb]; exact hcont
        have hiff := ih ls1 ls' h j
        rw [hbl] at hiff
        have hbeq : bidsOf ls1.st = bidsOf ls.st := by rw [bidsOf, bidsOf, hbl]
        rw [hbeq] at hiff
        rw [hiff]
        simp only [hmem]
        clear hiff h hpo hf hkb ih hbl hbeq hcont
        by_cases hji : j = i
        · subst hji
          simp [hkbi]
        · simp [hji]
      · have hkbi : keptB ots ls.st.blocks i = false := by rw [hkb]; exact hcont
        have hkeq : ∀ x, keptB ots ls1.st.blocks x = keptB ots ls.st.blocks x := by
          intro x
          rw [hst]
          exact keptB_removeBlock hf hcont x
        have hiff := ih ls1 ls' h j
        rw [hkeq] at hiff
        have hb1 : j ∈ bidsOf ls1.st ↔ j ∈ bidsOf ls.st ∧ j ≠ i := by
          rw [hst]
          exact removeBlock_bids_mem
        rw [hb1] at hiff
        rw [hiff]
        simp only [hmem]
        clear hiff h hpo hf hkb ih hb1 hkeq hst hcont
        by_cases hji : j = i
        · subst hji
          simp [hkbi]
        · simp [hji]

theorem pass_nodup {ots : List String} {mo : Bool} {mon : String} :
    ∀ (ids : List Nat) (ls ls' : LoopState),
      foldE (processObject ots mo mon) ls ids = .ok ls' →
      (bidsOf ls.st).Nodup → (bidsOf ls'.st).Nodup := by
  intro ids
  induction ids with
  | nil =>
    intro ls ls' h hnd
    injection h with h
    subst h
    exact hnd
  | cons i rest ih =>
    intro ls ls' h hnd
    rw [foldE] at h
    cases hpo : processObject ots mo mon ls i with
    | error e => rw [hpo] at h; exact Except.noConfusion h
    | ok ls1 =>
      rw [hpo] at h
      obtain ⟨b, _, hcase⟩ := po_cases hpo
      rcases hcase with ⟨_, _, hbl, _, _⟩ | ⟨_, hst, _⟩
      · exact ih ls1 ls' h (by rw [bidsOf, hbl]; exact hnd)
      · exact ih ls1 ls' h (by rw [hst]; exact removeBlock_nodup hnd)

theorem pass_origin {ots : List String} {mo : Bool} {mon : String} :
    ∀ (ids : List Nat) (ls ls' : LoopState),
      foldE (processObject ots mo mon) ls ids = .ok ls' →
      ∀ b2 ∈ ls'.st.blocks, ∃ b ∈ ls.st.blocks, sigEq b b2 := by
  intro ids
  induction ids with
  | nil =>
    intro ls ls' h b2 hb2
    injection h with h
    subst h
    exact ⟨b2, hb2, sigEq_refl b2⟩
  | cons i rest ih =>
    intro ls ls' h b2 hb2
    rw [foldE] at h
    cases hpo : processObject ots mo mon ls i with
    | error e => rw [hpo] at h; exact Except.noConfusion h
    | ok ls1 =>
      rw [hpo] at h
      obtain ⟨b, _, hcase⟩ := po_cases hpo
      obtain ⟨b1, hb1, hsig1⟩ := ih ls1 ls' h b2 hb2
      rcases hcase with ⟨_, _, hbl, _, _⟩ | ⟨_, hst, _⟩
      · rw [hbl] at hb1
        exact ⟨b1, hb1, hsig1⟩
      · rw [hst] at hb1
        obtain ⟨b0, hb0, _, he⟩ := removeBlock_blocks_mem.mp hb1
        exact ⟨b0, hb0, sigEq_trans (he ▸ pcClear_sigEq i b0) hsig1⟩

end BlendLoader

namespace BlendLoader

/-! Lemmas about the outer `for data_block in data_blocks` loop. -/

theorem pb_cases {dtF : String → List Nat} {ots : List String} {mo : Bool}
    {mon : String} {ls ls1 : LoopState} {d : String}
    (h : processBlock dtF ots mo mon ls d = .ok ls1) :
    (d = "objects" ∧ foldE (processObject ots mo mon) ls (dtF d) = .ok ls1) ∨
    (d ≠ "objects" ∧ ls1.st = ls.st ∧ ls1.loaded = ls.loaded ++ dtF d ∧
      ls1.potentialParents = ls.potentialParents) := by
  rw [processBlock] at h
  by_cases hd : (d == "objects") = true
  · rw [if_pos hd] at h
    exact Or.inl ⟨by simpa using hd, h⟩
  · rw [if_neg hd] at h
    injection h with h
    subst h
    exact Or.inr ⟨by simpa using hd, rfl, rfl, rfl⟩

theorem outer_loaded_mono {dtF : String → List Nat} {ots : List String} {mo : Bool}
    {mon : String} :
    ∀ (dbs : List String) (ls ls' : LoopState),
      foldE (processBlock dtF ots mo mon) ls dbs = .ok ls' →
      ∀ j ∈ ls.loaded, j ∈ ls'.loaded := by
  intro dbs
  induction dbs with
  | nil =>
    intro ls ls' h j hj
    injection h with h
    subst h
    exact hj
  | cons d rest ih =>
    intro ls ls' h j hj
    rw [foldE] at h
    cases hpb : processBlock dtF ots mo mon ls d with
    | error e => rw [hpb] at h; exact Except.noConfusion h
    | ok ls1 =>
      rw [hpb] at h
      rcases pb_cases hpb with ⟨_, hpass⟩ | ⟨_, _, hld, _⟩
      · have := pass_loaded (dtF d) ls ls1 hpass
        exact ih ls1 ls' h j (by rw [this]; exact List.mem_append_left _ hj)
      · exact ih ls1 ls' h j (by rw [hld]; exact List.mem_append_left _ hj)

theorem outer_else_loaded {dtF : String → List Nat} {ots : List String} {mo : Bool}
    {mon : String} :
    ∀ (dbs : List String) (ls ls' : LoopState),
      foldE (processBlock dtF ots mo mon) ls dbs = .ok ls' →
      ∀ d ∈ dbs, d ≠ "objects" → ∀ j ∈ dtF d, j ∈ ls'.loaded := by
  intro dbs
  induction dbs with
  | nil =>
    intro ls ls' h d hd
    cases hd
  | cons d0 rest ih =>
    intro ls ls' h d hd hdo j hj
    rw [foldE] at h
    cases hpb : processBlock dtF ots mo mon ls d0 with
    | error e => rw [hpb] at h; exact Except.noConfusion h
    | ok ls1 =>
      rw [hpb] at h
      rcases List.mem_cons.mp hd with hde | hde
      · subst hde
        rcases pb_cases hpb with ⟨hobj, _⟩ | ⟨_, _, hld, _⟩
        · exact absurd hobj hdo
        · exact outer_loaded_mono rest ls1 ls' h j
            (by rw [hld]; exact List.mem_append_right _ hj)
      · exact ih ls1 ls' h d hde hdo j hj

theorem outer_links_source {dtF : String → List Nat} {ots : List String} {mo : Bool}
    {mon : String} :
    ∀ (dbs : List String) (ls ls' : LoopState),
      foldE (processBlock dtF ots mo mon) ls dbs = .ok ls' →
      ∀ j ∈ ls'.st.sceneLinks, j ∈ ls.st.sceneLinks ∨ j ∈ dtF "objects" := by
  intro dbs
  induction dbs with
  | nil =>
    intro ls ls' h j hj
    injection h with h
    subst h
    exact Or.inl hj
  | cons d rest ih =>
    intro ls ls' h j hj
    rw [foldE] at h
    cases hpb : processBlock dtF ots mo mon ls d with
    | error e => rw [hpb] at h; exact Except.noConfusion h
    | ok ls1 =>
      rw [hpb] at h
      rcases ih ls1 ls' h j hj with h1 | h1
      · rcases pb_cases hpb with ⟨hobj, hpass⟩ | ⟨_, hst, _, _⟩
        · have := (pass_links_mem (dtF d) ls ls1 hpass j).mp h1
          rcases this.1 with h2 | h2
          · exact Or.inl h2
          · exact Or.inr (hobj ▸ h2.1)
        · exact Or.inl (hst ▸ h1)
      · exact Or.inr h1

theorem outer_origin {dtF : String → List Nat} {ots : List String} {mo : Bool}
    {mon : String} :
    ∀ (dbs : List String) (ls ls' : LoopState),
      foldE (processBlock dtF ots mo mon) ls dbs = .ok ls' →
      ∀ b2 ∈ ls'.st.blocks, ∃ b ∈ ls.st.blocks, sigEq b b2 := by
  intro dbs
  induction dbs with
  | nil =>
    intro ls ls' h b2 hb2
    injection h with h
    subst h
    exact ⟨b2, hb2, sigEq_refl b2⟩
  | cons d rest ih =>
    intro ls ls' h b2 hb2
    rw [foldE] at h
    cases hpb : processBlock dtF ots mo mon ls d with
    | error e => rw [hpb] at h; exact Except.noConfusion h
    | ok ls1 =>
      rw [hpb] at h
      obtain ⟨b1, hb1, hsig1⟩ := ih ls1 ls' h b2 hb2
      rcases pb_cases hpb with ⟨_, hpass⟩ | ⟨_, hst, _, _⟩
      · obtain ⟨b0, hb0, hsig0⟩ := pass_origin (dtF d) ls ls1 hpass b1 hb1
        exact ⟨b0, hb0, sigEq_trans hsig0 hsig1⟩
      · exact ⟨b1, hst ▸ hb1, hsig1⟩

theorem outer_nodup {dtF : String → List Nat} {ots : List String} {mo : Bool}
    {mon : String} :
    ∀ (dbs : List String) (ls ls' : LoopState),
      foldE (processBlock dtF ots mo mon) ls dbs = .ok ls' →
      (bidsOf ls.st).Nodup → (bidsOf ls'.st).Nodup := by
  intro dbs
  induction dbs with
  | nil =>
    intro ls ls' h hnd
    injection h with h
    subst h
    exact hnd
  | cons d rest ih =>
    intro ls ls' h hnd
    rw [foldE] at h
    cases hpb : processBlock dtF ots mo mon ls d with
    | error e => rw [hpb] at h; exact Except.noConfusion h
    | ok ls1 =>
      rw [hpb] at h
      rcases pb_cases hpb with ⟨_, hpass⟩ | ⟨_, hst, _, _⟩
      · exact ih ls1 ls' h (pass_nodup (dtF d) ls ls1 hpass hnd)
      · exact ih ls1 ls' h (by rw [hst]; exact hnd)

theorem outer_bids_monotone {dtF : String → List Nat} {ots : List String} {mo : Bool}
    {mon : String} :
    ∀ (dbs : List String) (ls ls' : LoopState),
      foldE (processBlock dtF ots mo mon) ls dbs = .ok ls' →
      ∀ j ∈ bidsOf ls'.st, j ∈ bidsOf ls.st := by
  intro dbs
  induction dbs with
  | nil =>
    intro ls ls' h j hj
    injection h with h
    subst h
    exact hj
  | cons d rest ih =>
    intro ls ls' h j hj
    rw [foldE] at h
    cases hpb : processBlock dtF ots mo mon ls d with
    | error e => rw [hpb] at h; exact Except.noConfusion h
    | ok ls1 =>
      rw [hpb] at h
      have h1 := ih ls1 ls' h j hj
      rcases pb_cases hpb with ⟨_, hpass⟩ | ⟨_, hst, _, _⟩
      · exact ((pass_bids_mem (dtF d) ls ls1 hpass j).mp h1).1
      · exact hst ▸ h1

end BlendLoader

namespace BlendLoader

theorem pass_kept_block {ots : List String} {mo : Bool} {mon : String}
    {ids : List Nat} {ls ls' : LoopState}
    (h : foldE (processObject ots mo mon) ls ids = .ok ls')
    (hnd : (bidsOf ls.st).Nodup) {b : Datablock} (hb : b ∈ ls.st.blocks)
    (hcont : ots.contains (strLower b.objType) = true) :
    ∃ b2 ∈ ls'.st.blocks, sigEq b b2 := by
  have hkb : keptB ots ls.st.blocks b.bid = true := by
    rw [keptB_eq_of_mem hnd hb]
    exact hcont
  have hbid : b.bid ∈ bidsOf ls'.st := (pass_bids_mem ids ls ls' h b.bid).mpr
    ⟨mem_bidsOf.mpr ⟨b, hb, rfl⟩,
     fun ⟨_, hk⟩ => by rw [hkb] at hk; exact Bool.noConfusion hk⟩
  obtain ⟨b2, hb2, hbid2⟩ := mem_bidsOf.mp hbid
  obtain ⟨b0, hb0, hsig0⟩ := pass_origin ids ls ls' h b2 hb2
  have hb0b : b0 = b :=
    List.inj_on_of_nodup_map hnd hb0 hb (by rw [← hsig0.1, hbid2])
  subst hb0b
  exact ⟨b2, hb2, hsig0⟩

theorem outer_kept_pres {dtF : String → List Nat} {ots : List String} {mo : Bool}
    {mon : String} :
    ∀ (dbs : List String) (ls ls' : LoopState) (b : Datablock),
      foldE (processBlock dtF ots mo mon) ls dbs = .ok ls' →
      (bidsOf ls.st).Nodup → b ∈ ls.st.blocks →
      ots.contains (strLower b.objType) = true → b.bid ∈ ls.st.sceneLinks →
      (∃ b2 ∈ ls'.st.blocks, sigEq b b2) ∧ b.bid ∈ ls'.st.sceneLinks := by
  intro dbs
  induction dbs with
  | nil =>
    intro ls ls' b h hnd hb hcont hl
    injection h with h
    subst h
    exact ⟨⟨b, hb, sigEq_refl b⟩, hl⟩
  | cons d rest ih =>
    intro ls ls' b h hnd hb hcont hl
    rw [foldE] at h
    cases hpb : processBlock dtF ots mo mon ls d with
    | error e => rw [hpb] at h; exact Except.noConfusion h
    | ok ls1 =>
      rw [hpb] at h
      rcases pb_cases hpb with ⟨_, hpass⟩ | ⟨_, hst, _, _⟩
      · have hkb : keptB ots ls.st.blocks b.bid = true := by
          rw [keptB_eq_of_mem hnd hb]
          exact hcont
        obtain ⟨b2, hb2, hsig⟩ := pass_kept_block hpass hnd hb hcont
        have hl1 : b.bid ∈ ls1.st.sceneLinks :=
          (pass_links_mem (dtF d) ls ls1 hpass b.bid).mpr
            ⟨Or.inl hl, fun ⟨_, hk⟩ => by rw [hkb] at hk; exact Bool.noConfusion hk⟩
        have hnd1 := pass_nodup (dtF d) ls ls1 hpass hnd
        have hcont2 : ots.contains (strLower b2.objType) = true := by
          rw [hsig.2.2.2.1]
          exact hcont
        have hl1b : b2.bid ∈ ls1.st.sceneLinks := by rw [hsig.1]; exact hl1
        obtain ⟨⟨b3, hb3, hsig3⟩, hl3⟩ := ih ls1 ls' b2 h hnd1 hb2 hcont2 hl1b
        refine ⟨⟨b3, hb3, sigEq_trans hsig hsig3⟩, ?_⟩
        rw [← hsig.1]
        exact hl3
      · have hb1 : b ∈ ls1.st.blocks := by rw [hst]; exact hb
        have hl1 : b.bid ∈ ls1.st.sceneLinks := by rw [hst]; exact hl
        have hnd1 : (bidsOf ls1.st).Nodup := by rw [hst]; exact hnd
        exact ih ls1 ls' b h hnd1 hb1 hcont hl1

theorem outer_abs_pres {dtF : String → List Nat} {ots : List String} {mo : Bool}
    {mon : String} {j : Nat} (habs : ∀ d, d ≠ "objects" → j ∉ dtF d) :
    ∀ (dbs : List String) (ls ls' : LoopState),
      foldE (processBlock dtF ots mo mon) ls dbs = .ok ls' →
      (∀ b ∈ ls.st.blocks, b.bid ≠ j) → j ∉ ls.st.sceneLinks → j ∉ ls.loaded →
      (∀ b ∈ ls'.st.blocks, b.bid ≠ j) ∧ j ∉ ls'.st.sceneLinks ∧ j ∉ ls'.loaded := by
  intro dbs
  induction dbs with
  | nil =>
    intro ls ls' h h1 h2 h3
    injection h with h
    subst h
    exact ⟨h1, h2, h3⟩
  | cons d rest ih =>
    intro ls ls' h h1 h2 h3
    rw [foldE] at h
    cases hpb : processBlock dtF ots mo mon ls d with
    | error e => rw [hpb] at h; exact Except.noConfusion h
    | ok ls1 =>
      rw [hpb] at h
      rcases pb_cases hpb with ⟨_, hpass⟩ | ⟨hdo, hst, hld, _⟩
      · have hkb : keptB ots ls.st.blocks j = false := by
          rw [keptB]
          have : ls.st.blocks.find? (fun bb => bb.bid == j) = none := by
            rw [List.find?_eq_none]
            intro bb hbb
            simp [h1 bb hbb]
          rw [this]
        have h1' : ∀ b ∈ ls1.st.blocks, b.bid ≠ j := by
          intro bb hbb
          intro hc
          have : j ∈ bidsOf ls1.st := mem_bidsOf.mpr ⟨bb, hbb, hc⟩
          have := ((pass_bids_mem (dtF d) ls ls1 hpass j).mp this).1
          obtain ⟨b0, hb0, hbid0⟩ := mem_bidsOf.mp this
          exact h1 b0 hb0 hbid0
        have h2' : j ∉ ls1.st.sceneLinks := by
          intro hc
          have := (pass_links_mem (dtF d) ls ls1 hpass j).mp hc
          rcases this.1 with hh | hh
          · exact h2 hh
          · rw [hkb] at hh; exact Bool.noConfusion hh.2
        have h3' : j ∉ ls1.loaded := by
          rw [pass_loaded (dtF d) ls ls1 hpass]
          intro hc
          rcases List.mem_append.mp hc with hh | hh
          · exact h3 hh
          · have := (List.mem_filter.mp hh).2
            rw [hkb] at this
            exact Bool.noConfusion this
        exact ih ls1 ls' h h1' h2' h3'
      · have h1' : ∀ b ∈ ls1.st.blocks, b.bid ≠ j := by rw [hst]; exact h1
        have h2' : j ∉ ls1.st.sceneLinks := by rw [hst]; exact h2
        have h3' : j ∉ ls1.loaded := by
          rw [hld]
          intro hc
          rcases List.mem_append.mp hc with hh | hh
          · exact h3 hh
          · exact habs d hdo hh
        exact ih ls1 ls' h h1' h2' h3'

end BlendLoader

namespace BlendLoader

theorem outer_pos {dtF : String → List Nat} {ots : List String} {mo : Bool}
    {mon : String} :
    ∀ (dbs : List String) (ls ls' : LoopState) (b : Datablock),
      foldE (processBlock dtF ots mo mon) ls dbs = .ok ls' →
      (bidsOf ls.st).Nodup → b ∈ ls.st.blocks →
      ots.contains (strLower b.objType) = true → b.bid ∈ dtF "objects" →
      "objects" ∈ dbs →
      b.bid ∈ ls'.loaded ∧ b.bid ∈ ls'.st.sceneLinks ∧
        (∃ b2 ∈ ls'.st.blocks, sigEq b b2) := by
  intro dbs
  induction dbs with
  | nil =>
    intro ls ls' b h hnd hb hcont hdt hobj
    cases hobj
  | cons d rest ih =>
    intro ls ls' b h hnd hb hcont hdt hobj
    rw [foldE] at h
    cases hpb : processBlock dtF ots mo mon ls d with
    | error e => rw [hpb] at h; exact Except.noConfusion h
    | ok ls1 =>
      rw [hpb] at h
      rcases pb_cases hpb with ⟨hdo, hpass⟩ | ⟨hdo, hst, hld, _⟩
      · subst hdo
        have hkb : keptB ots ls.st.blocks b.bid = true := by
          rw [keptB_eq_of_mem hnd hb]
          exact hcont
        have hloaded1 : b.bid ∈ ls1.loaded := by
          rw [pass_loaded (dtF "objects") ls ls1 hpass]
          exact List.mem_append_right _ (List.mem_filter.mpr ⟨hdt, hkb⟩)
        have hl1 : b.bid ∈ ls1.st.sceneLinks :=
          (pass_links_mem (dtF "objects") ls ls1 hpass b.bid).mpr
            ⟨Or.inr ⟨hdt, hkb⟩,
             fun ⟨_, hk⟩ => by rw [hkb] at hk; exact Bool.noConfusion hk⟩
        obtain ⟨b2, hb2, hsig⟩ := pass_kept_block hpass hnd hb hcont
        have hnd1 := pass_nodup (dtF "objects") ls ls1 hpass hnd
        have hcont2 : ots.contains (strLower b2.objType) = true := by
          rw [hsig.2.2.2.1]
          exact hcont
        have hl1b : b2.bid ∈ ls1.st.sceneLinks := by rw [hsig.1]; exact hl1
        obtain ⟨⟨b3, hb3, hsig3⟩, hl3⟩ :=
          outer_kept_pres rest ls1 ls' b2 h hnd1 hb2 hcont2 hl1b
        refine ⟨outer_loaded_mono rest ls1 ls' h b.bid hloaded1, ?_,
          ⟨b3, hb3, sigEq_trans hsig hsig3⟩⟩
        rw [← hsig.1]
        exact hl3
      · have hobj' : "objects" ∈ rest := by
          rcases List.mem_cons.mp hobj with hh | hh
          · exact absurd hh.symm hdo
          · exact hh
        have hb1 : b ∈ ls1.st.blocks := by rw [hst]; exact hb
        have hnd1 : (bidsOf ls1.st).Nodup := by rw [hst]; exact hnd
        exact ih ls1 ls' b h hnd1 hb1 hcont hdt hobj'

theorem outer_neg {dtF : String → List Nat} {ots : List String} {mo : Bool}
    {mon : String} {j : Nat} (habs : ∀ d, d ≠ "objects" → j ∉ dtF d) :
    ∀ (dbs : List String) (ls ls' : LoopState) (b : Datablock),
      foldE (processBlock dtF ots mo mon) ls dbs = .ok ls' →
      (bidsOf ls.st).Nodup → b ∈ ls.st.blocks → b.bid = j →
      ots.contains (strLower b.objType) = false → j ∈ dtF "objects" →
      "objects" ∈ dbs → j ∉ ls.loaded →
      (∀ b2 ∈ ls'.st.blocks, b2.bid ≠ j) ∧ j ∉ ls'.st.sceneLinks ∧
        j ∉ ls'.loaded := by
  intro dbs
  induction dbs with
  | nil =>
    intro ls ls' b h hnd hb hbid hcont hdt hobj hnl
    cases hobj
  | cons d rest ih =>
    intro ls ls' b h hnd hb hbid hcont hdt hobj hnl
    rw [foldE] at h
    cases hpb : processBlock dtF ots mo mon ls d with
    | error e => rw [hpb] at h; exact Except.noConfusion h
    | ok ls1 =>
      rw [hpb] at h
      rcases pb_cases hpb with ⟨hdo, hpass⟩ | ⟨hdo, hst, hld, _⟩
      · subst hdo
        have hkb : keptB ots ls.st.blocks j = false := by
          rw [← hbid, keptB_eq_of_mem hnd hb]
          exact hcont
        have h1' : ∀ b2 ∈ ls1.st.blocks, b2.bid ≠ j := by
          intro bb hbb hc
          have hmem : j ∈ bidsOf ls1.st := mem_bidsOf.mpr ⟨bb, hbb, hc⟩
          have := (pass_bids_mem (dtF "objects") ls ls1 hpass j).mp hmem
          exact this.2 ⟨hdt, hkb⟩
        have h2' : j ∉ ls1.st.sceneLinks := by
          intro hc
          have := (pass_links_mem (dtF "objects") ls ls1 hpass j).mp hc
          exact this.2 ⟨hdt, hkb⟩
        have h3' : j ∉ ls1.loaded := by
          rw [pass_loaded (dtF "objects") ls ls1 hpass]
          intro hc
          rcases List.mem_append.mp hc with hh | hh
          · exact hnl hh
          · have := (List.mem_filter.mp hh).2
            rw [hkb] at this
            exact Bool.noConfusion this
        exact outer_abs_pres habs rest ls1 ls' h h1' h2' h3'
      · have hobj' : "objects" ∈ rest := by
          rcases List.mem_cons.mp hobj with hh | hh
          · exact absurd hh.symm hdo
          · exact hh
        have hb1 : b ∈ ls1.st.blocks := by rw [hst]; exact hb
        have hnd1 : (bidsOf ls1.st).Nodup := by rw [hst]; exact hnd
        have hnl1 : j ∉ ls1.loaded := by
          rw [hld]
          intro hc
          rcases List.mem_append.mp hc with hh | hh
          · exact hnl hh
          · exact habs d hdo hh
        exact ih ls1 ls' b h hnd1 hb1 hbid hcont hdt hobj' hnl1

end BlendLoader

namespace BlendLoader

/-! Lemmas about the merge stage. -/

theorem mergeStage_not_merge {pid : Nat} {path mon : String} {mo : Bool}
    {ls : LoopState} (h : (mo && decide (ls.loaded.length > 1)) = false) :
    mergeStage pid path mon mo ls = .ok (ls.st, none) := by
  rw [mergeStage, if_neg (by rw [h]; exact Bool.false_ne_true)]

theorem mergeStage_ok_cases {pid : Nat} {path mon : String} {mo : Bool}
    {ls : LoopState} {mr : SceneState × Option (String × Nat)}
    (h : mergeStage pid path mon mo ls = .ok mr) :
    (mr = (ls.st, none) ∧ (mo && decide (ls.loaded.length > 1)) = false) ∨
    (∃ pn st2, (mo && decide (ls.loaded.length > 1)) = true ∧
      computeParentName path mon ls.potentialParents = .ok pn ∧
      reparentLoaded pid ls.loaded (withParentLinked pid pn ls.st) = .ok st2 ∧
      mr = (st2, some (pn, pid))) := by
  rw [mergeStage] at h
  by_cases hc : (mo && decide (ls.loaded.length > 1)) = true
  · rw [if_pos hc] at h
    split at h
    · exact Except.noConfusion h
    · rename_i pn hpn
      split at h
      · exact Except.noConfusion h
      · rename_i st2 hrp
        injection h with h
        exact Or.inr ⟨pn, st2, hc, hpn, hrp, h.symm⟩
  · rw [if_neg hc] at h
    injection h with h
    exact Or.inl ⟨h.symm, Bool.not_eq_true _ ▸ hc⟩

theorem reparent_links {pid : Nat} :
    ∀ (loaded : List Nat) (st st2 : SceneState),
      reparentLoaded pid loaded st = .ok st2 → st2.sceneLinks = st.sceneLinks := by
  intro loaded
  induction loaded with
  | nil =>
    intro st st2 h
    injection h with h
    rw [h]
  | cons i rest ih =>
    intro st st2 h
    rw [reparentLoaded, foldE] at h
    split at h
    · rename_i a2 heq
      have hrec := ih a2 st2 h
      rw [hrec]
      split at heq
      · exact Except.noConfusion heq
      · rename_i b hf
        split at heq
        · split at heq
          · injection heq with heq
            subst heq
            rfl
          · injection heq with heq
            subst heq
            rfl
        · exact Except.noConfusion heq
    · exact Except.noConfusion h

theorem reparent_bids {pid : Nat} :
    ∀ (loaded : List Nat) (st st2 : SceneState),
      reparentLoaded pid loaded st = .ok st2 → bidsOf st2 = bidsOf st := by
  intro loaded
  induction loaded with
  | nil =>
    intro st st2 h
    injection h with h
    rw [h]
  | cons i rest ih =>
    intro st st2 h
    rw [reparentLoaded, foldE] at h
    split at h
    · rename_i a2 heq
      have hrec := ih a2 st2 h
      rw [hrec]
      split at heq
      · exact Except.noConfusion heq
      · rename_i b hf
        split at heq
        · split at heq
          · injection heq with heq
            subst heq
            rw [bidsOf, bidsOf]
            show (st.blocks.map (fun b2 => if (b2.bid == i) = true then
              { b2 with parent := some pid } else b2)).map (fun b => b.bid) =
              st.blocks.map (fun b => b.bid)
            rw [List.map_map]
            refine List.map_congr_left (fun b2 _ => ?_)
            simp only [Function.comp_apply]
            split <;> rfl
          · injection heq with heq
            subst heq
            rfl
        · exact Except.noConfusion heq
    · exact Except.noConfusion h

theorem reparent_origin {pid : Nat} :
    ∀ (loaded : List Nat) (st st2 : SceneState),
      reparentLoaded pid loaded st = .ok st2 →
      ∀ b2 ∈ st2.blocks, ∃ b ∈ st.blocks, sigEq b b2 := by
  intro loaded
  induction loaded with
  | nil =>
    intro st st2 h b2 hb2
    injection h with h
    subst h
    exact ⟨b2, hb2, sigEq_refl b2⟩
  | cons i rest ih =>
    intro st st2 h b2 hb2
    rw [reparentLoaded, foldE] at h
    split at h
    · rename_i a2 heq
      obtain ⟨b1, hb1, hsig1⟩ := ih a2 st2 h b2 hb2
      split at heq
      · exact Except.noConfusion heq
      · rename_i b hf
        split at heq
        · split at heq
          · injection heq with heq
            subst heq
            obtain ⟨b0, hb0, he⟩ := List.mem_map.mp hb1
            refine ⟨b0, hb0, sigEq_trans ?_ hsig1⟩
            rw [← he]
            show sigEq b0 (if (b0.bid == i) = true then
              { b0 with parent := some pid } else b0)
            split
            · exact ⟨rfl, rfl, rfl, rfl, rfl⟩
            · exact sigEq_refl b0
          · injection heq with heq
            subst heq
            exact ⟨b1, hb1, hsig1⟩
        · exact Except.noConfusion heq
    · exact Except.noConfusion h

end BlendLoader

namespace BlendLoader

theorem reparent_mem {pid : Nat} :
    ∀ (loaded : List Nat) (st st2 : SceneState),
      reparentLoaded pid loaded st = .ok st2 → (bidsOf st).Nodup →
      ∀ b ∈ st.blocks,
        (b.bid ∈ loaded → b.parent = none → { b with parent := some pid } ∈ st2.blocks) ∧
        (b.parent ≠ none → b ∈ st2.blocks) ∧
        (b.bid ∉ loaded → b ∈ st2.blocks) := by
  intro loaded
  induction loaded with
  | nil =>
    intro st st2 h hnd b hb
    injection h with h
    subst h
    exact ⟨fun hc => absurd hc (List.not_mem_nil _), fun _ => hb, fun _ => hb⟩
  | cons i rest ih =>
    intro st st2 h hnd b hb
    rw [reparentLoaded, foldE] at h
    split at h
    · rename_i a2 heq
      split at heq
      · exact Except.noConfusion heq
      · rename_i bi hf
        have hbi : bi ∈ st.blocks := List.mem_of_find?_eq_some hf
        have hbibid : bi.bid = i := by simpa using List.find?_some hf
        split at heq
        · split at heq
          · rename_i hcol hpar
            injection heq with heq
            subst heq
            have hbids : bidsOf { st with blocks := st.blocks.map (fun b2 =>
                if (b2.bid == i) = true then { b2 with parent := some pid } else b2) } =
                bidsOf st := by
              rw [bidsOf, bidsOf]
              show (st.blocks.map (fun b2 => if (b2.bid == i) = true then
                { b2 with parent := some pid } else b2)).map (fun bb => bb.bid) =
                st.blocks.map (fun bb => bb.bid)
              rw [List.map_map]
              refine List.map_congr_left (fun b2 _ => ?_)
              simp only [Function.comp_apply]
              split <;> rfl
            have hnd1 : (bidsOf { st with blocks := st.blocks.map (fun b2 =>
                if (b2.bid == i) = true then { b2 with parent := some pid } else b2) }).Nodup := by
              rw [hbids]; exact hnd
            by_cases hbid : b.bid = i
            · have hbbi : b = bi := List.inj_on_of_nodup_map hnd hb hbi (by rw [hbid, hbibid])
              subst hbbi
              have hbpar : b.parent = none := by simpa using hpar
              have hmem1 : { b with parent := some pid } ∈
                  (st.blocks.map (fun b2 => if (b2.bid == i) = true then
                    { b2 with parent := some pid } else b2)) :=
                List.mem_map.mpr ⟨b, hb, by rw [if_pos (by simp [hbid])]⟩
              have := ih _ st2 h hnd1 { b with parent := some pid } hmem1
              refine ⟨fun _ _ => ?_, fun hc => absurd hbpar hc, fun hc => ?_⟩
              · exact this.2.1 (by simp)
              · exact absurd (hbid ▸ List.mem_cons_self i rest) hc
            · have hmem1 : b ∈ (st.blocks.map (fun b2 => if (b2.bid == i) = true then
                  { b2 with parent := some pid } else b2)) :=
                List.mem_map.mpr ⟨b, hb, by rw [if_neg (by simp [hbid])]⟩
              have := ih _ st2 h hnd1 b hmem1
              refine ⟨fun hc hp => ?_, this.2.1, fun hc => ?_⟩
              · rcases List.mem_cons.mp hc with hh | hh
                · exact absurd hh hbid
                · exact this.1 hh hp
              · exact this.2.2 (fun hh => hc (List.mem_cons_of_mem i hh))
          · rename_i hcol hpar
            injection heq with heq
            subst heq
            have := ih _ st2 h hnd b hb
            by_cases hbid : b.bid = i
            · have hbbi : b = bi := List.inj_on_of_nodup_map hnd hb hbi (by rw [hbid, hbibid])
              subst hbbi
              have hbpar : ¬ b.parent = none := by simpa using hpar
              refine ⟨fun _ hp => absurd hp hbpar, this.2.1, fun hc => ?_⟩
              · exact absurd (hbid ▸ List.mem_cons_self i rest) hc
            · refine ⟨fun hc hp => ?_, this.2.1, fun hc => ?_⟩
              · rcases List.mem_cons.mp hc with hh | hh
                · exact absurd hh hbid
                · exact this.1 hh hp
              · exact this.2.2 (fun hh => hc (List.mem_cons_of_mem i hh))
        · exact Except.noConfusion heq
    · exact Except.noConfusion h

theorem reparent_err {pid : Nat} :
    ∀ (loaded : List Nat) (st : SceneState) {j : Nat},
      j ∈ loaded → (bidsOf st).Nodup →
      (∃ b ∈ st.blocks, b.bid = j ∧ b.collection ≠ "objects") →
      ∀ st2, reparentLoaded pid loaded st ≠ .ok st2 := by
  intro loaded
  induction loaded with
  | nil =>
    intro st j hj
    cases hj
  | cons i rest ih =>
    intro st j hj hnd ⟨b, hb, hbid, hcol⟩ st2 h
    rw [reparentLoaded, foldE] at h
    split at h
    · rename_i a2 heq
      split at heq
      · exact Except.noConfusion heq
      · rename_i bi hf
        have hbi : bi ∈ st.blocks := List.mem_of_find?_eq_some hf
        have hbibid : bi.bid = i := by simpa using List.find?_some hf
        by_cases hji : j = i
        · subst hji
          have hbbi : b = bi := List.inj_on_of_nodup_map hnd hb hbi (by rw [hbid, hbibid])
          subst hbbi
          split at heq
          · rename_i hcobj
            exact hcol (by simpa using hcobj)
          · exact Except.noConfusion heq
        · have hjrest : j ∈ rest := by
            rcases List.mem_cons.mp hj with hh | hh
            · exact absurd hh hji
            · exact hh
          split at heq
          · split at heq
            · injection heq with heq
              subst heq
              have hbids : bidsOf { st with blocks := st.blocks.map (fun b2 =>
                  if (b2.bid == i) = true then { b2 with parent := some pid } else b2) } =
                  bidsOf st := by
                rw [bidsOf, bidsOf]
                show (st.blocks.map (fun b2 => if (b2.bid == i) = true then
                  { b2 with parent := some pid } else b2)).map (fun bb => bb.bid) =
                  st.blocks.map (fun bb => bb.bid)
                rw [List.map_map]
                refine List.map_congr_left (fun b2 _ => ?_)
                simp only [Function.comp_apply]
                split <;> rfl
              have hnd1 : (bidsOf { st with blocks := st.blocks.map (fun b2 =>
                  if (b2.bid == i) = true then { b2 with parent := some pid } else b2) }).Nodup := by
                rw [hbids]; exact hnd
              have hbmem : b ∈ (st.blocks.map (fun b2 => if (b2.bid == i) = true then
                  { b2 with parent := some pid } else b2)) :=
                List.mem_map.mpr ⟨b, hb,
                  by rw [if_neg (by simp [hbid ▸ hji])]⟩
              exact ih _ hjrest hnd1 ⟨b, hbmem, hbid, hcol⟩ st2 h
            · injection heq with heq
              subst heq
              exact ih _ hjrest hnd ⟨b, hb, hbid, hcol⟩ st2 h
          · exact Except.noConfusion heq
    · exact Except.noConfusion h

end BlendLoader

namespace BlendLoader

/-! Lemmas about the import stage and fresh identities. -/

theorem depClosure_extends (deps : List (Nat × Nat)) :
    ∀ (n : Nat) (acc : List Nat), ∀ x ∈ acc, x ∈ depClosure deps n acc := by
  intro n
  induction n with
  | zero => exact fun acc x hx => hx
  | succ n ih =>
    intro acc x hx
    rw [depClosure]
    split
    · exact hx
    · exact ih _ x (List.mem_append_left _ hx)

theorem dataToIds_mem {file : BlendFile} {fm : String → String → Bool}
    {nr : Option String} {d : String} {i : Nat} (h : i ∈ dataToIds file fm nr d) :
    ∃ b ∈ file.fileBlocks, b.bid = i ∧ b.collection = d := by
  rw [dataToIds] at h
  obtain ⟨b, hb, hbid⟩ := List.mem_map.mp h
  rw [List.mem_filter] at hb
  obtain ⟨hb, _⟩ := hb
  rw [List.mem_filter] at hb
  obtain ⟨hb, hcol⟩ := hb
  exact ⟨b, hb, hbid, by simpa using hcol⟩

theorem mem_importedIds {file : BlendFile} {fm : String → String → Bool}
    {nr : Option String} {dbs : List String} {d : String} {i : Nat}
    (hd : d ∈ dbs) (hi : i ∈ dataToIds file fm nr d) :
    i ∈ importedIds file fm nr dbs := by
  rw [importedIds]
  apply depClosure_extends
  exact List.mem_dedup.mpr (List.mem_flatMap.mpr ⟨d, hd, hi⟩)

theorem afterImport_mem {s : SceneState} {file : BlendFile}
    {fm : String → String → Bool} {nr : Option String} {dbs : List String}
    {b : Datablock} (hb : b ∈ file.fileBlocks)
    (hi : b.bid ∈ importedIds file fm nr dbs) :
    b ∈ (afterImport s file fm nr dbs).blocks := by
  show b ∈ s.blocks ++ file.fileBlocks.filter
    (fun b2 => (importedIds file fm nr dbs).contains b2.bid)
  refine List.mem_append_right _ (List.mem_filter.mpr ⟨hb, ?_⟩)
  simp [List.contains, List.elem_iff, hi]

theorem afterImport_mem_cases {s : SceneState} {file : BlendFile}
    {fm : String → String → Bool} {nr : Option String} {dbs : List String}
    {b : Datablock} (hb : b ∈ (afterImport s file fm nr dbs).blocks) :
    b ∈ s.blocks ∨ b ∈ file.fileBlocks := by
  rcases List.mem_append.mp hb with h | h
  · exact Or.inl h
  · exact Or.inr (List.mem_filter.mp h).1

theorem afterImport_nodup {s : SceneState} {file : BlendFile}
    {fm : String → String → Bool} {nr : Option String} {dbs : List String}
    (hnd : ((s.blocks ++ file.fileBlocks).map (fun b => b.bid)).Nodup) :
    (bidsOf (afterImport s file fm nr dbs)).Nodup := by
  have hsub : (afterImport s file fm nr dbs).blocks.Sublist
      (s.blocks ++ file.fileBlocks) := by
    show (s.blocks ++ file.fileBlocks.filter _).Sublist (s.blocks ++ file.fileBlocks)
    exact List.Sublist.append (List.Sublist.refl _) (List.filter_sublist _)
  exact ((hsub.map (fun b => b.bid)).nodup hnd)

theorem afterImport_links {s : SceneState} {file : BlendFile}
    {fm : String → String → Bool} {nr : Option String} {dbs : List String} :
    (afterImport s file fm nr dbs).sceneLinks = s.sceneLinks := rfl

theorem foldl_max_nat_le (l : List Nat) (a : Nat) : a ≤ l.foldl max a := by
  induction l generalizing a with
  | nil => exact le_refl a
  | cons c cs ih => exact le_trans (le_max_left a c) (ih (max a c))

theorem foldl_max_nat_ge {l : List Nat} {x : Nat} (hx : x ∈ l) (a : Nat) :
    x ≤ l.foldl max a := by
  induction l generalizing a with
  | nil => cases hx
  | cons c cs ih =>
    rcases List.mem_cons.mp hx with h | h
    · subst h
      exact le_trans (le_max_right a x) (foldl_max_nat_le cs (max a x))
    · exact ih h (max a c)

theorem globalFreshId_gt {s : SceneState} {file : BlendFile} {j : Nat}
    (hj : j ∈ (s.blocks ++ file.fileBlocks).map (fun b => b.bid)) :
    j < globalFreshId s file := by
  rw [globalFreshId]
  have := foldl_max_nat_ge hj 0
  omega

theorem file_bid_mem {file : BlendFile} {s : SceneState} {b : Datablock}
    (hb : b ∈ file.fileBlocks) :
    b.bid ∈ (s.blocks ++ file.fileBlocks).map (fun b => b.bid) :=
  List.mem_map.mpr ⟨b, List.mem_append_right _ hb, rfl⟩

theorem file_nodup_of_global {s : SceneState} {file : BlendFile}
    (hnd : ((s.blocks ++ file.fileBlocks).map (fun b => b.bid)).Nodup) :
    (file.fileBlocks.map (fun b => b.bid)).Nodup := by
  rw [List.map_append] at hnd
  exact (List.nodup_append.mp hnd).2.1

theorem dataToIds_disjoint {s : SceneState} {file : BlendFile}
    {fm : String → String → Bool} {nr : Option String}
    (hnd : ((s.blocks ++ file.fileBlocks).map (fun b => b.bid)).Nodup)
    {j : Nat} {d d' : String} (h1 : j ∈ dataToIds file fm nr d)
    (h2 : j ∈ dataToIds file fm nr d') : d = d' := by
  obtain ⟨b1, hb1, hbid1, hcol1⟩ := dataToIds_mem h1
  obtain ⟨b2, hb2, hbid2, hcol2⟩ := dataToIds_mem h2
  have hfnd := file_nodup_of_global hnd
  have : b1 = b2 := List.inj_on_of_nodup_map hfnd hb1 hb2 (by rw [hbid1, hbid2])
  rw [← hcol1, this, hcol2]

end BlendLoader

namespace BlendLoader

theorem contains_eq_true_iff {α : Type} [BEq α] [LawfulBEq α] {l : List α} {a : α} :
    l.contains a = true ↔ a ∈ l := by
  simp [List.contains, List.elem_iff]

theorem afterImport_bids_sub {s : SceneState} {file : BlendFile}
    {fm : String → String → Bool} {nr : Option String} {dbs : List String} :
    ∀ j ∈ bidsOf (afterImport s file fm nr dbs),
      j ∈ (s.blocks ++ file.fileBlocks).map (fun b => b.bid) := by
  intro j hj
  have hsub : (afterImport s file fm nr dbs).blocks.Sublist
      (s.blocks ++ file.fileBlocks) := by
    show (s.blocks ++ file.fileBlocks.filter _).Sublist (s.blocks ++ file.fileBlocks)
    exact List.Sublist.append (List.Sublist.refl _) (List.filter_sublist _)
  rw [bidsOf] at hj
  have hsub2 : ((afterImport s file fm nr dbs).blocks.map (fun b => b.bid)).Sublist
      ((s.blocks ++ file.fileBlocks).map (fun b => b.bid)) := hsub.map _
  exact hsub2.mem hj

theorem file_block_collection {s : SceneState} {file : BlendFile}
    {fm : String → String → Bool} {nr : Option String} {d : String} {b : Datablock}
    (hnd : ((s.blocks ++ file.fileBlocks).map (fun b => b.bid)).Nodup)
    (hbf : b ∈ file.fileBlocks) (hbdt : b.bid ∈ dataToIds file fm nr d) :
    b.collection = d := by
  obtain ⟨bb, hbb, hbbid, hbbcol⟩ := dataToIds_mem hbdt
  have hfnd := file_nodup_of_global hnd
  have heq : bb = b := List.inj_on_of_nodup_map hfnd hbb hbf hbbid
  rw [← heq]
  exact hbbcol

end BlendLoader

/-- Claim C1 (amended): for every successful call to `BlendLoader.load` with a
well-formed scene (distinct datablock identities, scene links pointing at existing
datablocks), an imported object is kept — linked into the scene collection, still
present in the data, and appended to the internal `loaded_objects` list — if and only
if its lowercased type is among the configured `obj_types`; an imported object whose
type is not in `obj_types` is removed from the scene data again, stays unlinked and is
not in `loaded_objects`.  The `loaded_objects` list is the returned list except when
`merge_objects` is set and more than one object was loaded (then only the merged
parent is returned, see claim C5). -/
theorem claim_C1 (s : BlendLoader.SceneState) (file : BlendLoader.BlendFile)
    (fm : String → String → Bool) (path : String) (otc : BlendLoader.ConfigValue)
    (nr : Option String) (dbc : BlendLoader.ConfigValue) (mo : Bool) (mon : String)
    (r : BlendLoader.LoadOk)
    (hok : BlendLoader.load s file fm path otc nr dbc mo mon = .ok r)
    (hnd : ((s.blocks ++ file.fileBlocks).map (fun b => b.bid)).Nodup)
    (b : BlendLoader.Datablock) (hbf : b ∈ file.fileBlocks)
    (hbdt : b.bid ∈ BlendLoader.dtGet r.dataTo "objects") :
    (r.objTypes.contains (BlendLoader.strLower b.objType) = true →
      b.bid ∈ r.loadedObjects ∧ b.bid ∈ r.state.sceneLinks ∧
        ∃ b2 ∈ r.state.blocks, BlendLoader.sigEq b b2) ∧
    (r.objTypes.contains (BlendLoader.strLower b.objType) = false →
      b.bid ∉ r.loadedObjects ∧ b.bid ∉ r.state.sceneLinks ∧
        ∀ b2 ∈ r.state.blocks, b2.bid ≠ b.bid) ∧
    ((mo = false ∨ r.loadedObjects.length ≤ 1) → r.returned = r.loadedObjects) := by
  classical
  obtain ⟨dbs, ots, dtL, ls, mr, h1, h2, h3, h4, h5, hfin⟩ := BlendLoader.load_ok_inv hok
  obtain ⟨hst, hdbs, hots, hdt, hld, hpm, hpi, hretn, hrets⟩ :=
    BlendLoader.finishLoad_parts hfin
  obtain ⟨hdtL, hvalid⟩ := BlendLoader.importBlocks_ok h3
  rw [hdt] at hbdt
  have hbdt0 : b.bid ∈ BlendLoader.dtGet dtL "objects" := hbdt
  rw [hdtL, BlendLoader.dtGet_mkDataTo] at hbdt
  have hobj : "objects" ∈ dbs ∧ b.bid ∈ BlendLoader.dataToIds file fm nr "objects" := by
    by_cases hcd : dbs.contains "objects" = true
    · rw [if_pos hcd] at hbdt
      exact ⟨BlendLoader.contains_eq_true_iff.mp hcd, hbdt⟩
    · rw [if_neg hcd] at hbdt
      cases hbdt
  have hcolb : b.collection = "objects" :=
    BlendLoader.file_block_collection hnd hbf hobj.2
  have hnd0 : (BlendLoader.bidsOf (BlendLoader.afterImport s file fm nr dbs)).Nodup :=
    BlendLoader.afterImport_nodup hnd
  have hb0 : b ∈ (BlendLoader.afterImport s file fm nr dbs).blocks :=
    BlendLoader.afterImport_mem hbf (BlendLoader.mem_importedIds hobj.1 hobj.2)
  rw [BlendLoader.processAll] at h4
  have habs : ∀ d, d ≠ "objects" → b.bid ∉ BlendLoader.dtGet dtL d := by
    intro d hdne hmem
    rw [hdtL, BlendLoader.dtGet_mkDataTo] at hmem
    by_cases hc : dbs.contains d = true
    · rw [if_pos hc] at hmem
      exact hdne (BlendLoader.dataToIds_disjoint hnd hmem hobj.2)
    · rw [if_neg hc] at hmem
      cases hmem
  have hndls : (BlendLoader.bidsOf ls.st).Nodup :=
    BlendLoader.outer_nodup dbs _ ls h4 hnd0
  have hbidsub : ∀ j ∈ BlendLoader.bidsOf ls.st,
      j ∈ (s.blocks ++ file.fileBlocks).map (fun b => b.bid) := by
    intro j hj
    exact BlendLoader.afterImport_bids_sub j
      (BlendLoader.outer_bids_monotone dbs _ ls h4 j hj)
  have hpidnot : BlendLoader.globalFreshId s file ∉ BlendLoader.bidsOf ls.st := by
    intro hc
    exact absurd (BlendLoader.globalFreshId_gt (hbidsub _ hc)) (lt_irrefl _)
  refine ⟨?_, ?_, ?_⟩
  · -- kept objects stay linked, present, and in loaded_objects
    intro hcont
    rw [hots] at hcont
    obtain ⟨hl1, hl2, b2, hb2, hsig2⟩ :=
      BlendLoader.outer_pos dbs _ ls b h4 hnd0 hb0 hcont hbdt0 hobj.1
    -- through the merge stage
    have hmerge : ∃ b3 ∈ mr.1.blocks, BlendLoader.sigEq b b3 ∧
        b.bid ∈ mr.1.sceneLinks ∧ (BlendLoader.bidsOf mr.1).Nodup := by
      rcases BlendLoader.mergeStage_ok_cases h5 with ⟨hmr, _⟩ | ⟨pn, st2, _, _, hrp, hmr⟩
      · rw [hmr]
        exact ⟨b2, hb2, hsig2, hl2, hndls⟩
      · rw [hmr]
        have hwplbids : BlendLoader.bidsOf
            (BlendLoader.withParentLinked (BlendLoader.globalFreshId s file) pn ls.st) =
            BlendLoader.bidsOf ls.st ++ [BlendLoader.globalFreshId s file] := by
          rw [BlendLoader.bidsOf, BlendLoader.bidsOf]
          show (ls.st.blocks ++ [BlendLoader.newEmptyObject _ pn]).map _ = _
          rw [List.map_append]
          rfl
        have hwplnd : (BlendLoader.bidsOf
            (BlendLoader.withParentLinked (BlendLoader.globalFreshId s file) pn
              ls.st)).Nodup := by
          rw [hwplbids]
          rw [List.nodup_append]
          exact ⟨hndls, List.nodup_singleton _,
            fun a ha hb => by rw [List.mem_singleton] at hb; subst hb; exact hpidnot ha⟩
        have hb2w : b2 ∈ (BlendLoader.withParentLinked
            (BlendLoader.globalFreshId s file) pn ls.st).blocks :=
          List.mem_append_left _ hb2
        have hrm := BlendLoader.reparent_mem ls.loaded _ st2 hrp hwplnd b2 hb2w
        have hlw : b.bid ∈ (BlendLoader.withParentLinked
            (BlendLoader.globalFreshId s file) pn ls.st).sceneLinks :=
          List.mem_append_left _ hl2
        have hnd2 : (BlendLoader.bidsOf st2).Nodup := by
          rw [BlendLoader.reparent_bids ls.loaded _ st2 hrp]
          exact hwplnd
        have hlk2 : b.bid ∈ st2.sceneLinks := by
          rw [BlendLoader.reparent_links ls.loaded _ st2 hrp]
          exact hlw
        by_cases hbl : b2.bid ∈ ls.loaded
        · by_cases hbp : b2.parent = none
          · refine ⟨{ b2 with parent := some (BlendLoader.globalFreshId s file) },
              hrm.1 hbl hbp, ?_, hlk2, hnd2⟩
            obtain ⟨e1, e2, e3, e4, e5⟩ := hsig2
            exact ⟨e1, e2, e3, e4, e5⟩
          · exact ⟨b2, hrm.2.1 hbp, hsig2, hlk2, hnd2⟩
        · exact ⟨b2, hrm.2.2 hbl, hsig2, hlk2, hnd2⟩
    obtain ⟨b3, hb3, hsig3, hlk3, hnd3⟩ := hmerge
    -- through the purge
    have hprot : (BlendLoader.dtGet dtL b3.collection).contains b3.bid = true := by
      rw [hsig3.2.1, hcolb, hsig3.1]
      exact BlendLoader.contains_eq_true_iff.mpr hbdt0
    obtain ⟨b4, hb4, hsig4, hlink4, _⟩ :=
      BlendLoader.purgeLoop_protected (BlendLoader.collect_all_orphan_datablocks s)
        (BlendLoader.dtGet dtL) (mr.1.blocks.length + 1) mr.1 b3 hnd3 hb3
        (Or.inl hprot)
    refine ⟨by rw [hld]; exact hl1, ?_, ?_⟩
    · rw [hst]
      have := hlink4 (by rw [hsig3.1]; exact hlk3)
      rw [hsig3.1] at this
      exact this
    · rw [hst]
      exact ⟨b4, hb4, BlendLoader.sigEq_trans hsig3 hsig4⟩
  · -- objects of undesired type disappear again
    intro hcont
    rw [hots] at hcont
    obtain ⟨hg1, hg2, hg3⟩ :=
      BlendLoader.outer_neg habs dbs _ ls b h4 hnd0 hb0 rfl hcont hbdt0 hobj.1
        (by simp)
    have hmr1 : (∀ b2 ∈ mr.1.blocks, b2.bid ≠ b.bid) ∧ b.bid ∉ mr.1.sceneLinks := by
      rcases BlendLoader.mergeStage_ok_cases h5 with ⟨hmr, _⟩ | ⟨pn, st2, _, _, hrp, hmr⟩
      · rw [hmr]
        exact ⟨fun b2 hb2 => hg1 b2 hb2, hg2⟩
      · rw [hmr]
        have hpidne : BlendLoader.globalFreshId s file ≠ b.bid := by
          intro hc
          exact absurd (BlendLoader.globalFreshId_gt (BlendLoader.file_bid_mem hbf))
            (by rw [hc]; exact lt_irrefl _)
        have hwpl : ∀ b2 ∈ (BlendLoader.withParentLinked
            (BlendLoader.globalFreshId s file) pn ls.st).blocks, b2.bid ≠ b.bid := by
          intro b2 hb2
          rcases List.mem_append.mp hb2 with hh | hh
          · exact hg1 b2 hh
          · rw [List.mem_singleton] at hh
            subst hh
            exact hpidne
        constructor
        · intro b2 hb2 hc
          have : b2.bid ∈ BlendLoader.bidsOf st2 :=
            BlendLoader.mem_bidsOf.mpr ⟨b2, hb2, rfl⟩
          rw [BlendLoader.reparent_bids ls.loaded _ st2 hrp] at this
          obtain ⟨b1, hb1, hbid1⟩ := BlendLoader.mem_bidsOf.mp this
          exact hwpl b1 hb1 (by rw [hbid1, hc])
        · rw [BlendLoader.reparent_links ls.loaded _ st2 hrp]
          intro hc
          rcases List.mem_append.mp hc with hh | hh
          · exact hg2 hh
          · rw [List.mem_singleton] at hh
            exact hpidne hh.symm
    refine ⟨by rw [hld]; exact hg3, ?_, ?_⟩
    · rw [hst]
      intro hc
      exact hmr1.2 (BlendLoader.purgeLoop_links_monotone _ _ _ _ _ hc)
    · rw [hst]
      intro b2 hb2 hc
      have : b2.bid ∈ BlendLoader.bidsOf
          (BlendLoader._purge_added_orphans (BlendLoader.collect_all_orphan_datablocks s)
            (BlendLoader.dtGet dtL) mr.1) :=
        BlendLoader.mem_bidsOf.mpr ⟨b2, hb2, rfl⟩
      have := BlendLoader.purgeLoop_bids_monotone _ _ _ _ _ this
      obtain ⟨b1, hb1, hbid1⟩ := BlendLoader.mem_bidsOf.mp this
      exact hmr1.1 b1 hb1 (by rw [hbid1, hc])
  · -- no merge happened: loaded_objects is returned
    intro hc
    have hcond : (mo && decide (ls.loaded.length > 1)) = false := by
      rcases hc with hc | hc
      · rw [hc]
        rfl
      · rw [hld] at hc
        have : decide (ls.loaded.length > 1) = false := by
          rw [decide_eq_false_iff_not]
          omega
        rw [this, Bool.and_false]
    have h5' := @BlendLoader.mergeStage_not_merge
      (BlendLoader.globalFreshId s file) (BlendLoader.resolve_path path) mon mo ls
      hcond
    rw [h5'] at h5
    injection h5 with h5
    rw [hretn (by rw [← h5]), hld]

/-- Claim C1 witness: in the concrete run `runW`, the mesh object (identity 10) is
kept, linked and returned, while the curve object (identity 11) is removed. -/
theorem claim_C1_witness :
    (10 ∈ BlendLoaderExamples.resW.loadedObjects ∧
      10 ∈ BlendLoaderExamples.resW.state.sceneLinks ∧
      ∃ b2 ∈ BlendLoaderExamples.resW.state.blocks,
        BlendLoader.sigEq (BlendLoaderExamples.fW.fileBlocks.getD 0 default) b2) ∧
    (11 ∉ BlendLoaderExamples.resW.loadedObjects ∧
      11 ∉ BlendLoaderExamples.resW.state.sceneLinks ∧
      ∀ b2 ∈ BlendLoaderExamples.resW.state.blocks, b2.bid ≠ 11) ∧
    BlendLoaderExamples.resW.returned = BlendLoaderExamples.resW.loadedObjects :=
  ⟨(claim_C1 BlendLoaderExamples.sW BlendLoaderExamples.fW BlendLoaderExamples.fmNone
      "/tmp/tree.blend" (.list ["mesh", "empty"]) none (.str "objects") false
      "parent_name" BlendLoaderExamples.resW (by decide) (by decide)
      (BlendLoaderExamples.fW.fileBlocks.getD 0 default) (by decide) (by decide)).1
      (by decide),
   (claim_C1 BlendLoaderExamples.sW BlendLoaderExamples.fW BlendLoaderExamples.fmNone
      "/tmp/tree.blend" (.list ["mesh", "empty"]) none (.str "objects") false
      "parent_name" BlendLoaderExamples.resW (by decide) (by decide)
      (BlendLoaderExamples.fW.fileBlocks.getD 1 default) (by decide) (by decide)).2.1
      (by decide),
   (claim_C1 BlendLoaderExamples.sW BlendLoaderExamples.fW BlendLoaderExamples.fmNone
      "/tmp/tree.blend" (.list ["mesh", "empty"]) none (.str "objects") false
      "parent_name" BlendLoaderExamples.resW (by decide) (by decide)
      (BlendLoaderExamples.fW.fileBlocks.getD 0 default) (by decide) (by decide)).2.2
      (Or.inl rfl)⟩

/-- Claim C1 counterexample (to the claim as stated): in the merging run `runM` the
mesh object of identity 10 passes the type filter and is kept — linked into the scene
collection and in `loaded_objects` — yet it is not in the returned list, because the
merge step returns only the synthetic parent. -/
theorem claim_C1_counterexample :
    BlendLoaderExamples.runM = Except.ok BlendLoaderExamples.resM ∧
    BlendLoaderExamples.resM.objTypes.contains
      (BlendLoader.strLower
        (BlendLoaderExamples.fM.fileBlocks.getD 0 default).objType) = true ∧
    10 ∈ BlendLoader.dtGet BlendLoaderExamples.resM.dataTo "objects" ∧
    10 ∈ BlendLoaderExamples.resM.loadedObjects ∧
    10 ∈ BlendLoaderExamples.resM.state.sceneLinks ∧
    10 ∉ BlendLoaderExamples.resM.returned := by
  refine ⟨by decide, by decide, by decide, by decide, by decide, by decide⟩

namespace BlendLoader

theorem pass_block_pres {ots : List String} {mo : Bool} {mon : String}
    {ids : List Nat} {ls ls' : LoopState}
    (h : foldE (processObject ots mo mon) ls ids = .ok ls')
    (hnd : (bidsOf ls.st).Nodup) {b : Datablock} (hb : b ∈ ls.st.blocks)
    (hni : b.bid ∉ ids) :
    ∃ b2 ∈ ls'.st.blocks, sigEq b b2 := by
  have hbid : b.bid ∈ bidsOf ls'.st := (pass_bids_mem ids ls ls' h b.bid).mpr
    ⟨mem_bidsOf.mpr ⟨b, hb, rfl⟩, fun ⟨hin, _⟩ => hni hin⟩
  obtain ⟨b2, hb2, hbid2⟩ := mem_bidsOf.mp hbid
  obtain ⟨b0, hb0, hsig0⟩ := pass_origin ids ls ls' h b2 hb2
  have hb0b : b0 = b :=
    List.inj_on_of_nodup_map hnd hb0 hb (by rw [← hsig0.1, hbid2])
  subst hb0b
  exact ⟨b2, hb2, hsig0⟩

theorem outer_block_pres {dtF : String → List Nat} {ots : List String} {mo : Bool}
    {mon : String} :
    ∀ (dbs : List String) (ls ls' : LoopState) (b : Datablock),
      foldE (processBlock dtF ots mo mon) ls dbs = .ok ls' →
      (bidsOf ls.st).Nodup → b ∈ ls.st.blocks → b.bid ∉ dtF "objects" →
      ∃ b2 ∈ ls'.st.blocks, sigEq b b2 := by
  intro dbs
  induction dbs with
  | nil =>
    intro ls ls' b h _ hb _
    injection h with h
    subst h
    exact ⟨b, hb, sigEq_refl b⟩
  | cons d rest ih =>
    intro ls ls' b h hnd hb hni
    rw [foldE] at h
    cases hpb : processBlock dtF ots mo mon ls d with
    | error e => rw [hpb] at h; exact Except.noConfusion h
    | ok ls1 =>
      rw [hpb] at h
      rcases pb_cases hpb with ⟨hdo, hpass⟩ | ⟨_, hst, _, _⟩
      · subst hdo
        obtain ⟨b2, hb2, hsig⟩ := pass_block_pres hpass hnd hb hni
        have hnd1 := pass_nodup (dtF "objects") ls ls1 hpass hnd
        have hni2 : b2.bid ∉ dtF "objects" := by rw [hsig.1]; exact hni
        obtain ⟨b3, hb3, hsig3⟩ := ih ls1 ls' b2 h hnd1 hb2 hni2
        exact ⟨b3, hb3, sigEq_trans hsig hsig3⟩
      · have hb1 : b ∈ ls1.st.blocks := by rw [hst]; exact hb
        have hnd1 : (bidsOf ls1.st).Nodup := by rw [hst]; exact hnd
        exact ih ls1 ls' b h hnd1 hb1 hni

end BlendLoader

/-- Claim C7: type filtering applies only to the "objects" data block.  For every
successful call over a well-formed scene, every entity imported for a requested data
block other than "objects" is appended to `loaded_objects` unconditionally — no
`obj_types` condition appears — is in the returned list, and is never linked to the
scene collection. -/
theorem claim_C7 (s : BlendLoader.SceneState) (file : BlendLoader.BlendFile)
    (fm : String → String → Bool) (path : String) (otc : BlendLoader.ConfigValue)
    (nr : Option String) (dbc : BlendLoader.ConfigValue) (mo : Bool) (mon : String)
    (r : BlendLoader.LoadOk)
    (hok : BlendLoader.load s file fm path otc nr dbc mo mon = .ok r)
    (hnd : ((s.blocks ++ file.fileBlocks).map (fun b => b.bid)).Nodup)
    (hlinks : ∀ j ∈ s.sceneLinks, j ∈ s.blocks.map (fun b => b.bid))
    (d : String) (hd : d ∈ r.dataBlocks) (hdo : d ≠ "objects")
    (i : Nat) (hi : i ∈ BlendLoader.dtGet r.dataTo d) :
    i ∈ r.loadedObjects ∧ i ∈ r.returned ∧ i ∉ r.state.sceneLinks := by
  classical
  obtain ⟨dbs, ots, dtL, ls, mr, h1, h2, h3, h4, h5, hfin⟩ := BlendLoader.load_ok_inv hok
  obtain ⟨hst, hdbs, hots, hdt, hld, hpm, hpi, hretn, hrets⟩ :=
    BlendLoader.finishLoad_parts hfin
  obtain ⟨hdtL, hvalid⟩ := BlendLoader.importBlocks_ok h3
  rw [hdbs] at hd
  rw [hdt] at hi
  have hi0 : i ∈ BlendLoader.dtGet dtL d := hi
  rw [hdtL, BlendLoader.dtGet_mkDataTo] at hi
  have hido : i ∈ BlendLoader.dataToIds file fm nr d := by
    by_cases hcd : dbs.contains d = true
    · rw [if_pos hcd] at hi
      exact hi
    · rw [if_neg hcd] at hi
      cases hi
  obtain ⟨bi, hbif, hbid, hbcol⟩ := BlendLoader.dataToIds_mem hido
  have hno : i ∉ BlendLoader.dtGet dtL "objects" := by
    intro hmem
    rw [hdtL, BlendLoader.dtGet_mkDataTo] at hmem
    by_cases hc : dbs.contains "objects" = true
    · rw [if_pos hc] at hmem
      exact hdo (BlendLoader.dataToIds_disjoint hnd hido hmem)
    · rw [if_neg hc] at hmem
      cases hmem
  have hnd0 : (BlendLoader.bidsOf (BlendLoader.afterImport s file fm nr dbs)).Nodup :=
    BlendLoader.afterImport_nodup hnd
  have hbi0 : bi ∈ (BlendLoader.afterImport s file fm nr dbs).blocks :=
    BlendLoader.afterImport_mem hbif
      (BlendLoader.mem_importedIds hd (by rw [hbid]; exact hido))
  rw [BlendLoader.processAll] at h4
  have hloaded : i ∈ ls.loaded :=
    BlendLoader.outer_else_loaded dbs _ ls h4 d hd hdo i hi0
  have hndls : (BlendLoader.bidsOf ls.st).Nodup :=
    BlendLoader.outer_nodup dbs _ ls h4 hnd0
  -- the i-block is still present at the merge entry, with its non-"objects" collection
  obtain ⟨b2, hb2, hsig2⟩ := BlendLoader.outer_block_pres dbs _ ls bi h4 hnd0 hbi0
    (by rw [hbid]; exact hno)
  have hbidsub : ∀ j ∈ BlendLoader.bidsOf ls.st,
      j ∈ (s.blocks ++ file.fileBlocks).map (fun b => b.bid) := by
    intro j hj
    exact BlendLoader.afterImport_bids_sub j
      (BlendLoader.outer_bids_monotone dbs _ ls h4 j hj)
  have hpidnot : BlendLoader.globalFreshId s file ∉ BlendLoader.bidsOf ls.st := by
    intro hc
    exact absurd (BlendLoader.globalFreshId_gt (hbidsub _ hc)) (lt_irrefl _)
  -- the merge branch cannot have run: it would have read `.parent` of the i-block
  have hmr : mr = (ls.st, none) := by
    rcases BlendLoader.mergeStage_ok_cases h5 with ⟨hmr, _⟩ | ⟨pn, st2, _, _, hrp, _⟩
    · exact hmr
    · exfalso
      have hwplnd : (BlendLoader.bidsOf (BlendLoader.withParentLinked
          (BlendLoader.globalFreshId s file) pn ls.st)).Nodup := by
        have hwplbids : BlendLoader.bidsOf
            (BlendLoader.withParentLinked (BlendLoader.globalFreshId s file) pn ls.st) =
            BlendLoader.bidsOf ls.st ++ [BlendLoader.globalFreshId s file] := by
          rw [BlendLoader.bidsOf, BlendLoader.bidsOf]
          show (ls.st.blocks ++ [BlendLoader.newEmptyObject _ pn]).map _ = _
          rw [List.map_append]
          rfl
        rw [hwplbids, List.nodup_append]
        exact ⟨hndls, List.nodup_singleton _,
          fun a ha hb => by rw [List.mem_singleton] at hb; subst hb; exact hpidnot ha⟩
      refine BlendLoader.reparent_err ls.loaded _ hloaded hwplnd
        ⟨b2, List.mem_append_left _ hb2, ?_, ?_⟩ st2 hrp
      · rw [hsig2.1, hbid]
      · rw [hsig2.2.1, hbcol]
        exact hdo
  have hlsnl : i ∉ ls.st.sceneLinks := by
    intro hc
    rcases BlendLoader.outer_links_source dbs _ ls h4 i hc with hh | hh
    · -- i would have been linked before the load, but it is a fresh file identity
      have hh2 : i ∈ s.blocks.map (fun b => b.bid) := hlinks i hh
      rw [List.map_append, List.nodup_append] at hnd
      exact hnd.2.2 hh2 (by rw [← hbid]; exact List.mem_map.mpr ⟨bi, hbif, rfl⟩)
    · exact hno hh
  refine ⟨by rw [hld]; exact hloaded, ?_, ?_⟩
  · rw [hretn (by rw [hmr])]
    exact hloaded
  · rw [hst, hmr]
    intro hc
    exact hlsnl (BlendLoader.purgeLoop_links_monotone _ _ _ _ _ hc)

/-- Claim C7 witness: in the run `runD`, the mesh datablock (identity 30) imported for
the "meshes" data block is returned without any type check and never linked. -/
theorem claim_C7_witness :
    30 ∈ BlendLoaderExamples.resD.loadedObjects ∧
    30 ∈ BlendLoaderExamples.resD.returned ∧
    30 ∉ BlendLoaderExamples.resD.state.sceneLinks :=
  claim_C7 BlendLoaderExamples.sE BlendLoaderExamples.fD BlendLoaderExamples.fmNone
    "/tmp/m.blend" (.list ["mesh", "empty"]) none (.list ["meshes"]) false
    "parent_name" BlendLoaderExamples.resD (by decide) (by decide) (by decide)
    "meshes" (by decide) (by decide) 30 (by decide)

namespace BlendLoader

theorem outer_loaded_inv {dtF : String → List Nat} {ots : List String} {mo : Bool}
    {mon : String} (hdisj : ∀ j d d', j ∈ dtF d → j ∈ dtF d' → d = d') :
    ∀ (dbs : List String) (ls ls' : LoopState),
      foldE (processBlock dtF ots mo mon) ls dbs = .ok ls' →
      (bidsOf ls.st).Nodup →
      (∀ d, d ≠ "objects" → ∀ j ∈ dtF d,
        ∃ bj ∈ ls.st.blocks, bj.bid = j ∧ bj.collection = d) →
      (∀ j ∈ dtF "objects", ∀ b ∈ ls.st.blocks, b.bid = j →
        b.collection = "objects") →
      (∀ j ∈ ls.loaded, ∃ bj ∈ ls.st.blocks, bj.bid = j ∧ j ∈ dtF bj.collection ∧
        (j ∈ dtF "objects" → ots.contains (strLower bj.objType) = true)) →
      ∀ j ∈ ls'.loaded, ∃ bj ∈ ls'.st.blocks, bj.bid = j ∧ j ∈ dtF bj.collection ∧
        (j ∈ dtF "objects" → ots.contains (strLower bj.objType) = true) := by
  intro dbs
  induction dbs with
  | nil =>
    intro ls ls' h _ _ _ hI
    injection h with h
    subst h
    exact hI
  | cons d rest ih =>
    intro ls ls' h hnd hJ hJO hI
    rw [foldE] at h
    cases hpb : processBlock dtF ots mo mon ls d with
    | error e => rw [hpb] at h; exact Except.noConfusion h
    | ok ls1 =>
      rw [hpb] at h
      rcases pb_cases hpb with ⟨hdo, hpass⟩ | ⟨hdo, hst, hld, _⟩
      · subst hdo
        have hnd1 := pass_nodup (dtF "objects") ls ls1 hpass hnd
        have hJ1 : ∀ d', d' ≠ "objects" → ∀ j ∈ dtF d',
            ∃ bj ∈ ls1.st.blocks, bj.bid = j ∧ bj.collection = d' := by
          intro d' hd' j hj
          obtain ⟨bj, hbj, hbid, hcol⟩ := hJ d' hd' j hj
          have hni : bj.bid ∉ dtF "objects" := by
            rw [hbid]
            intro hc
            exact hd' (hdisj j d' "objects" hj hc)
          obtain ⟨b2, hb2, hsig⟩ := pass_block_pres hpass hnd hbj hni
          exact ⟨b2, hb2, by rw [hsig.1, hbid], by rw [hsig.2.1, hcol]⟩
        have hJO1 : ∀ j ∈ dtF "objects", ∀ b ∈ ls1.st.blocks, b.bid = j →
            b.collection = "objects" := by
          intro j hj b hb hbid
          obtain ⟨b0, hb0, hsig⟩ := pass_origin (dtF "objects") ls ls1 hpass b hb
          have := hJO j hj b0 hb0 (by rw [← hsig.1, hbid])
          rw [hsig.2.1, this]
        have hI1 : ∀ j ∈ ls1.loaded, ∃ bj ∈ ls1.st.blocks, bj.bid = j ∧
            j ∈ dtF bj.collection ∧
            (j ∈ dtF "objects" → ots.contains (strLower bj.objType) = true) := by
          intro j hj
          rw [pass_loaded (dtF "objects") ls ls1 hpass] at hj
          rcases List.mem_append.mp hj with hjo | hjn
          · obtain ⟨bj, hbj, hbid, hmemdt, htype⟩ := hI j hjo
            by_cases hjobj : j ∈ dtF "objects"
            · have hcont : ots.contains (strLower bj.objType) = true := htype hjobj
              obtain ⟨b2, hb2, hsig⟩ := pass_kept_block hpass hnd hbj hcont
              refine ⟨b2, hb2, by rw [hsig.1, hbid], ?_, ?_⟩
              · rw [hsig.2.1]; exact hmemdt
              · intro _
                rw [hsig.2.2.2.1]
                exact hcont
            · have hni : bj.bid ∉ dtF "objects" := by rw [hbid]; exact hjobj
              obtain ⟨b2, hb2, hsig⟩ := pass_block_pres hpass hnd hbj hni
              refine ⟨b2, hb2, by rw [hsig.1, hbid], ?_, fun hc => absurd hc hjobj⟩
              rw [hsig.2.1]
              exact hmemdt
          · have hjin := (List.mem_filter.mp hjn).1
            have hkb := (List.mem_filter.mp hjn).2
            rw [keptB] at hkb
            cases hf : ls.st.blocks.find? (fun bb => bb.bid == j) with
            | none => rw [hf] at hkb; exact Bool.noConfusion hkb
            | some bf =>
              rw [hf] at hkb
              have hbfm : bf ∈ ls.st.blocks := List.mem_of_find?_eq_some hf
              have hbfid : bf.bid = j := by simpa using List.find?_some hf
              obtain ⟨b2, hb2, hsig⟩ := pass_kept_block hpass hnd hbfm hkb
              have hcol2 : b2.collection = "objects" := by
                rw [hsig.2.1]
                exact hJO j hjin bf hbfm hbfid
              refine ⟨b2, hb2, by rw [hsig.1, hbfid], ?_, ?_⟩
              · rw [hcol2]
                exact hjin
              · intro _
                rw [hsig.2.2.2.1]
                exact hkb
        exact ih ls1 ls' h hnd1 hJ1 hJO1 hI1
      · have hnd1 : (bidsOf ls1.st).Nodup := by rw [hst]; exact hnd
        have hJ1 : ∀ d', d' ≠ "objects" → ∀ j ∈ dtF d',
            ∃ bj ∈ ls1.st.blocks, bj.bid = j ∧ bj.collection = d' := by
          rw [hst]
          exact hJ
        have hJO1 : ∀ j ∈ dtF "objects", ∀ b ∈ ls1.st.blocks, b.bid = j →
            b.collection = "objects" := by
          rw [hst]
          exact hJO
        have hI1 : ∀ j ∈ ls1.loaded, ∃ bj ∈ ls1.st.blocks, bj.bid = j ∧
            j ∈ dtF bj.collection ∧
            (j ∈ dtF "objects" → ots.contains (strLower bj.objType) = true) := by
          intro j hj
          rw [hld] at hj
          rcases List.mem_append.mp hj with hjo | hjn
          · obtain ⟨bj, hbj, hrest⟩ := hI j hjo
            exact ⟨bj, by rw [hst]; exact hbj, hrest⟩
          · obtain ⟨bj, hbj, hbid, hcol⟩ := hJ d hdo j hjn
            refine ⟨bj, by rw [hst]; exact hbj, hbid, ?_, ?_⟩
            · rw [hcol]
              exact hjn
            · intro hc
              exact absurd (hdisj j d "objects" hjn hc) hdo
        exact ih ls1 ls' h hnd1 hJ1 hJO1 hI1

end BlendLoader

/-- Claim C5 (amended): when `merge_objects` is True and more than one object was
loaded, `BlendLoader.load` creates a new synthetic empty parent object, links it into
the scene collection, reparents every loaded object that has no parent to it while
objects that already have a parent keep theirs, and returns a one-element list; the
returned element is the synthetic parent provided no pre-existing or archive datablock
is an object carrying the chosen parent name (the final lookup is by name).  When at
most one object was loaded, no parent is created and `loaded_objects` itself is
returned (see the counterexample). -/
theorem claim_C5 (s : BlendLoader.SceneState) (file : BlendLoader.BlendFile)
    (fm : String → String → Bool) (path : String) (otc : BlendLoader.ConfigValue)
    (nr : Option String) (dbc : BlendLoader.ConfigValue) (mo : Bool) (mon : String)
    (r : BlendLoader.LoadOk) (pn : String) (pid : Nat)
    (hok : BlendLoader.load s file fm path otc nr dbc mo mon = .ok r)
    (hnd : ((s.blocks ++ file.fileBlocks).map (fun b => b.bid)).Nodup)
    (hmo : mo = true) (hlen : r.loadedObjects.length > 1)
    (hpn : r.parentInfo = some (pn, pid))
    (huq : ∀ b ∈ s.blocks ++ file.fileBlocks,
      ¬(b.collection = "objects" ∧ b.name = pn)) :
    r.returned = [pid] ∧
    (∃ pb ∈ r.state.blocks, pb.bid = pid ∧ pb.collection = "objects" ∧
      pb.name = pn ∧ pb.objType = "EMPTY" ∧ pb.parent = none) ∧
    pid ∈ r.state.sceneLinks ∧
    (∀ b ∈ r.preMergeBlocks, b.bid ∈ r.loadedObjects →
      (b.parent = none →
        ∃ b2 ∈ r.state.blocks, b2.bid = b.bid ∧ b2.parent = some pid) ∧
      (∀ q, b.parent = some q →
        ∃ b2 ∈ r.state.blocks, b2.bid = b.bid ∧ b2.parent = some q)) := by
  classical
  obtain ⟨dbs, ots, dtL, ls, mr, h1, h2, h3, h4, h5, hfin⟩ := BlendLoader.load_ok_inv hok
  obtain ⟨hst, hdbs, hots, hdt, hld, hpm, hpi, hretn, hrets⟩ :=
    BlendLoader.finishLoad_parts hfin
  obtain ⟨hdtL, hvalid⟩ := BlendLoader.importBlocks_ok h3
  -- the merge branch ran
  rcases BlendLoader.mergeStage_ok_cases h5 with ⟨hmr, _⟩ | ⟨pn0, st2, _, _, hrp, hmr⟩
  · exfalso
    rw [hmr] at hpi
    rw [hpi] at hpn
    exact Option.noConfusion hpn
  have hsome : some (pn0, BlendLoader.globalFreshId s file) = some (pn, pid) := by
    rw [← hpn, hpi, hmr]
  injection hsome with hpair
  have hpneq : pn = pn0 := (congrArg Prod.fst hpair).symm
  have hpideq : BlendLoader.globalFreshId s file = pid := congrArg Prod.snd hpair
  subst hpneq
  -- well-formedness facts at the state after the import
  have hnd0 : (BlendLoader.bidsOf (BlendLoader.afterImport s file fm nr dbs)).Nodup :=
    BlendLoader.afterImport_nodup hnd
  have hdisj : ∀ j d d', j ∈ BlendLoader.dtGet dtL d → j ∈ BlendLoader.dtGet dtL d' →
      d = d' := by
    intro j d d' hjd hjd'
    rw [hdtL, BlendLoader.dtGet_mkDataTo] at hjd hjd'
    by_cases hc : dbs.contains d = true
    · rw [if_pos hc] at hjd
      by_cases hc' : dbs.contains d' = true
      · rw [if_pos hc'] at hjd'
        exact BlendLoader.dataToIds_disjoint hnd hjd hjd'
      · rw [if_neg hc'] at hjd'
        cases hjd'
    · rw [if_neg hc] at hjd
      cases hjd
  have hdtsub : ∀ d j, j ∈ BlendLoader.dtGet dtL d →
      d ∈ dbs ∧ j ∈ BlendLoader.dataToIds file fm nr d := by
    intro d j hj
    rw [hdtL, BlendLoader.dtGet_mkDataTo] at hj
    by_cases hc : dbs.contains d = true
    · rw [if_pos hc] at hj
      exact ⟨BlendLoader.contains_eq_true_iff.mp hc, hj⟩
    · rw [if_neg hc] at hj
      cases hj
  have hJinit : ∀ d, d ≠ "objects" → ∀ j ∈ BlendLoader.dtGet dtL d,
      ∃ bj ∈ (BlendLoader.afterImport s file fm nr dbs).blocks,
        bj.bid = j ∧ bj.collection = d := by
    intro d _ j hj
    obtain ⟨hd, hj2⟩ := hdtsub d j hj
    obtain ⟨bj, hbj, hbid, hcol⟩ := BlendLoader.dataToIds_mem hj2
    exact ⟨bj, BlendLoader.afterImport_mem hbj
      (BlendLoader.mem_importedIds hd (by rw [hbid]; exact hj2)), hbid, hcol⟩
  have hJOinit : ∀ j ∈ BlendLoader.dtGet dtL "objects",
      ∀ b ∈ (BlendLoader.afterImport s file fm nr dbs).blocks, b.bid = j →
        b.collection = "objects" := by
    intro j hj b hb hbid
    obtain ⟨_, hj2⟩ := hdtsub "objects" j hj
    obtain ⟨bj, hbj, hbjbid, hbjcol⟩ := BlendLoader.dataToIds_mem hj2
    rcases BlendLoader.afterImport_mem_cases hb with hcase | hcase
    · exfalso
      rw [List.map_append, List.nodup_append] at hnd
      exact hnd.2.2 (List.mem_map.mpr ⟨b, hcase, rfl⟩)
        (by rw [hbid, ← hbjbid]; exact List.mem_map.mpr ⟨bj, hbj, rfl⟩)
    · have hfnd := BlendLoader.file_nodup_of_global hnd
      have : b = bj := List.inj_on_of_nodup_map hfnd hcase hbj (by rw [hbid, hbjbid])
      rw [this]
      exact hbjcol
  rw [BlendLoader.processAll] at h4
  have hndls : (BlendLoader.bidsOf ls.st).Nodup :=
    BlendLoader.outer_nodup dbs _ ls h4 hnd0
  have hInv := BlendLoader.outer_loaded_inv hdisj dbs _ ls h4 hnd0 hJinit hJOinit
    (fun j hj => absurd hj (List.not_mem_nil j))
  have hloaded_sub : ∀ j ∈ ls.loaded, j ∈ BlendLoader.bidsOf ls.st := by
    intro j hj
    obtain ⟨bj, hbj, hbid, _⟩ := hInv j hj
    exact BlendLoader.mem_bidsOf.mpr ⟨bj, hbj, hbid⟩
  have hbidsub : ∀ j ∈ BlendLoader.bidsOf ls.st,
      j ∈ (s.blocks ++ file.fileBlocks).map (fun b => b.bid) := by
    intro j hj
    exact BlendLoader.afterImport_bids_sub j
      (BlendLoader.outer_bids_monotone dbs _ ls h4 j hj)
  have hpidnot : BlendLoader.globalFreshId s file ∉ BlendLoader.bidsOf ls.st := by
    intro hc
    exact absurd (BlendLoader.globalFreshId_gt (hbidsub _ hc)) (lt_irrefl _)
  have hwplbids : BlendLoader.bidsOf
      (BlendLoader.withParentLinked (BlendLoader.globalFreshId s file) pn ls.st) =
      BlendLoader.bidsOf ls.st ++ [BlendLoader.globalFreshId s file] := by
    rw [BlendLoader.bidsOf, BlendLoader.bidsOf]
    show (ls.st.blocks ++ [BlendLoader.newEmptyObject _ pn]).map _ = _
    rw [List.map_append]
    rfl
  have hwplnd : (BlendLoader.bidsOf (BlendLoader.withParentLinked
      (BlendLoader.globalFreshId s file) pn ls.st)).Nodup := by
    rw [hwplbids, List.nodup_append]
    exact ⟨hndls, List.nodup_singleton _,
      fun a ha hb => by rw [List.mem_singleton] at hb; subst hb; exact hpidnot ha⟩
  have hnd2 : (BlendLoader.bidsOf st2).Nodup := by
    rw [BlendLoader.reparent_bids ls.loaded _ st2 hrp]
    exact hwplnd
  -- the synthetic parent survives the reparent loop and the purge
  have hpbwpl : BlendLoader.newEmptyObject (BlendLoader.globalFreshId s file) pn ∈
      (BlendLoader.withParentLinked (BlendLoader.globalFreshId s file) pn
        ls.st).blocks :=
    List.mem_append_right _ (List.mem_singleton.mpr rfl)
  have hpbnotloaded : (BlendLoader.newEmptyObject
      (BlendLoader.globalFreshId s file) pn).bid ∉ ls.loaded :=
    fun hc => hpidnot (hloaded_sub _ hc)
  have hpb2 : BlendLoader.newEmptyObject (BlendLoader.globalFreshId s file) pn ∈
      st2.blocks :=
    (BlendLoader.reparent_mem ls.loaded _ st2 hrp hwplnd _ hpbwpl).2.2 hpbnotloaded
  have hpblk2 : BlendLoader.globalFreshId s file ∈ st2.sceneLinks := by
    rw [BlendLoader.reparent_links ls.loaded _ st2 hrp]
    exact List.mem_append_right _ (List.mem_singleton.mpr rfl)
  obtain ⟨pb4, hpb4, hsig4, hlink4, hparn4⟩ :=
    BlendLoader.purgeLoop_protected (BlendLoader.collect_all_orphan_datablocks s)
      (BlendLoader.dtGet dtL) (st2.blocks.length + 1) st2 _ hnd2 hpb2
      (Or.inr (Or.inr hpblk2))
  have hmr1 : mr.1 = st2 := by rw [hmr]
  -- every final object named pn is the synthetic parent
  have huniq_final : ∀ bf ∈ r.state.blocks, bf.collection = "objects" →
      bf.name = pn → bf.bid = BlendLoader.globalFreshId s file := by
    intro bf hbf hcol hname
    rw [hst, hmr1] at hbf
    obtain ⟨b3, hb3, hsig3⟩ :=
      BlendLoader.purgeLoop_origin (BlendLoader.collect_all_orphan_datablocks s)
        (BlendLoader.dtGet dtL) (st2.blocks.length + 1) st2 bf hbf
    obtain ⟨b2, hb2, hsig2⟩ := BlendLoader.reparent_origin ls.loaded _ st2 hrp b3 hb3
    rcases List.mem_append.mp hb2 with hcase | hcase
    · exfalso
      obtain ⟨b1, hb1, hsig1⟩ := BlendLoader.outer_origin dbs _ ls h4 b2 hcase
      have hb0 := BlendLoader.afterImport_mem_cases hb1
      have hb0m : b1 ∈ s.blocks ++ file.fileBlocks := by
        rcases hb0 with hh | hh
        · exact List.mem_append_left _ hh
        · exact List.mem_append_right _ hh
      refine huq b1 hb0m ⟨?_, ?_⟩
      · rw [← hsig1.2.1, ← hsig2.2.1, ← hsig3.2.1]
        exact hcol
      · rw [← hsig1.2.2.1, ← hsig2.2.2.1, ← hsig3.2.2.1]
        exact hname
    · rw [List.mem_singleton] at hcase
      rw [hsig3.1, hsig2.1, hcase]
      rfl
  refine ⟨?_, ?_, ?_, ?_⟩
  · -- the returned list is the synthetic parent's singleton
    obtain ⟨b2, hfind, hret⟩ := hrets pn pid (by rw [hmr, hpideq])
    have hb2mem := List.mem_of_find?_eq_some hfind
    rw [List.mem_filter] at hb2mem
    have hb2name : b2.name = pn := by simpa using List.find?_some hfind
    have hb2col : b2.collection = "objects" := by simpa using hb2mem.2
    have hb2r : b2 ∈ r.state.blocks := by
      have hmem := hb2mem.1
      rw [hmr1] at hmem
      rw [hst, hmr1]
      exact hmem
    rw [hret, huniq_final b2 hb2r hb2col hb2name, hpideq]
  · -- the synthetic parent exists in the final state
    refine ⟨pb4, by rw [hst, hmr1]; exact hpb4, ?_, ?_, ?_, ?_, ?_⟩
    · rw [hsig4.1, ← hpideq]
      rfl
    · rw [hsig4.2.1]
      rfl
    · rw [hsig4.2.2.1]
      rfl
    · rw [hsig4.2.2.2.1]
      rfl
    · exact hparn4 rfl
  · -- it is linked
    rw [hst, hmr1, ← hpideq]
    exact hlink4 hpblk2
  · -- reparenting of the loaded objects
    intro b hbpm hbl
    rw [hpm] at hbpm
    rw [hld] at hbl
    obtain ⟨bj, hbj, hbjbid, hbjdt, _⟩ := hInv b.bid hbl
    have hbjb : bj = b := List.inj_on_of_nodup_map hndls hbj hbpm hbjbid
    subst hbjb
    have hdtb : (BlendLoader.dtGet dtL bj.collection).contains bj.bid = true :=
      BlendLoader.contains_eq_true_iff.mpr hbjdt
    have hbwpl : bj ∈ (BlendLoader.withParentLinked
        (BlendLoader.globalFreshId s file) pn ls.st).blocks :=
      List.mem_append_left _ hbpm
    have hrm := BlendLoader.reparent_mem ls.loaded _ st2 hrp hwplnd bj hbwpl
    constructor
    · intro hparn
      have hbin : { bj with parent := some (BlendLoader.globalFreshId s file) } ∈
          st2.blocks := hrm.1 hbl hparn
      obtain ⟨b2, hb2, hsig2, hpar2⟩ :=
        BlendLoader.purgeLoop_child_parent (BlendLoader.collect_all_orphan_datablocks s)
          (BlendLoader.dtGet dtL) (st2.blocks.length + 1) st2 _
          (BlendLoader.globalFreshId s file) hnd2 hbin rfl (Or.inl hdtb)
      refine ⟨b2, by rw [hst, hmr1]; exact hb2, by rw [hsig2.1], ?_⟩
      rw [hpar2, hpideq]
    · intro q hparq
      have hbin : bj ∈ st2.blocks := hrm.2.1 (by rw [hparq]; exact Option.noConfusion)
      obtain ⟨b2, hb2, hsig2, hpar2⟩ :=
        BlendLoader.purgeLoop_child_parent (BlendLoader.collect_all_orphan_datablocks s)
          (BlendLoader.dtGet dtL) (st2.blocks.length + 1) st2 bj q hnd2 hbin hparq
          (Or.inl hdtb)
      exact ⟨b2, by rw [hst, hmr1]; exact hb2, by rw [hsig2.1], hpar2⟩

/-- Claim C5 witness: in the merging run `runM` two mesh objects (identities 10, 11)
are loaded, a synthetic empty parent named "Tree" with fresh identity 12 is created,
linked and returned as the sole element, and both parentless loaded objects end up
with parent 12. -/
theorem claim_C5_witness :
    BlendLoaderExamples.resM.returned = [12] ∧
    (∃ pb ∈ BlendLoaderExamples.resM.state.blocks, pb.bid = 12 ∧
      pb.collection = "objects" ∧ pb.name = "Tree" ∧ pb.objType = "EMPTY" ∧
      pb.parent = none) ∧
    12 ∈ BlendLoaderExamples.resM.state.sceneLinks ∧
    (∀ b ∈ BlendLoaderExamples.resM.preMergeBlocks,
      b.bid ∈ BlendLoaderExamples.resM.loadedObjects →
      (b.parent = none → ∃ b2 ∈ BlendLoaderExamples.resM.state.blocks,
        b2.bid = b.bid ∧ b2.parent = some 12) ∧
      (∀ q, b.parent = some q → ∃ b2 ∈ BlendLoaderExamples.resM.state.blocks,
        b2.bid = b.bid ∧ b2.parent = some q)) :=
  claim_C5 BlendLoaderExamples.sE BlendLoaderExamples.fM BlendLoaderExamples.fmNone
    "/tmp/tree.blend" (.list ["mesh", "empty"]) none (.str "objects") true
    "parent_name" BlendLoaderExamples.resM "Tree" 12 (by decide) (by decide) rfl
    (by decide) (by decide) (by decide)

/-- Claim C5 counterexample (to the claim as stated): the run `runS` has
`merge_objects = True` and succeeds, yet no synthetic parent is created
(`parentInfo = none`) and the returned list is `loaded_objects` itself — its sole
element is the mesh of identity 10 that came from the archive — because the merge
step only runs when more than one object was loaded. -/
theorem claim_C5_counterexample :
    BlendLoaderExamples.runS = Except.ok BlendLoaderExamples.resS ∧
    BlendLoaderExamples.resS.parentInfo = none ∧
    BlendLoaderExamples.resS.returned = BlendLoaderExamples.resS.loadedObjects ∧
    BlendLoaderExamples.resS.returned = [10] ∧
    (BlendLoaderExamples.fS.fileBlocks.getD 0 default).bid = 10 := by
  refine ⟨by decide, by decide, by decide, by decide, by decide⟩
